import Mathlib

/-!
Verification development for the Warsaw m2 price processor
(`scripts/fetch_warsaw_m2_prices.py`).

The Python source is shallowly embedded as executable Lean definitions:
Python floats become rationals, Python dicts become association lists with
update-or-append insertion, fallible code returns `Option` or `Except`, and
`round(x, 2)` (round-half-to-even on the decimal scale) becomes `round2`.
Python `//` and `%` on integers coincide with Lean `Int` `/` and `%`
(Euclidean division) for the positive divisors used here.
-/

attribute [local semireducible] Rat.add Rat.mul Rat.inv Rat.sub

/-- Floor of a rational, computed from the numerator and denominator.
For the positive denominator of a normalized `Rat`, `Int` division is
floor division. -/
def qfloor (x : ℚ) : ℤ := x.num / (x.den : ℤ)

/-- Round a rational to the nearest integer, ties to even: the semantics of
Python `round` on an exactly representable value. -/
def roundHalfEven (x : ℚ) : ℤ :=
  let n := qfloor x
  let frac := x - (n : ℚ)
  if frac < 1/2 then n
  else if 1/2 < frac then n + 1
  else if n % 2 = 0 then n else n + 1

/-- Model of Python `round(x, 2)`: round to 2 decimal places. -/
def round2 (x : ℚ) : ℚ := ((roundHalfEven (x * 100) : ℤ) : ℚ) / 100

/-- One row of the NBP sheet after parsing: `{'year': ..., 'quarter': ...,
'priceM2': ...}` as built by `extract_warsaw_quarterly_prices`. -/
structure QuarterlyRecord where
  year : Int
  quarter : Int
  priceM2 : ℚ
deriving DecidableEq

/-- One element of the monthly series produced by
`interpolate_quarterly_to_monthly`: `{'year', 'month', 'priceM2_pln'}`. -/
structure MonthlyRecord where
  year : Int
  month : Int
  priceM2_pln : ℚ
deriving DecidableEq

/-- One element of the output of `convert_to_gold_equivalent`:
the monthly record plus `priceM2_gold`, which is `None` when the gold
table has no entry for the month. -/
structure EnrichedMonthlyRecord where
  year : Int
  month : Int
  priceM2_pln : ℚ
  priceM2_gold : Option ℚ
deriving DecidableEq

/-- A Python dict keyed by `(year, month)` with rational values, embedded as
an association list holding at most one binding per key
(`monthly_prices` and `gold_prices` in the source). -/
abbrev Store : Type := List ((Int × Int) × ℚ)

/-- Dict lookup: `d[k]` / `k in d`. -/
def lookupStore : Store → (Int × Int) → Option ℚ
  | [], _ => none
  | (k0, v0) :: rest, k => if k = k0 then some v0 else lookupStore rest k

/-- Dict assignment `d[k] = v`: update the binding in place if the key is
present, otherwise append it (Python dicts keep insertion order). -/
def insertKey : Store → (Int × Int) → ℚ → Store
  | [], k, v => [(k, v)]
  | (k0, v0) :: rest, k, v =>
      if k = k0 then (k, v) :: rest else (k0, v0) :: insertKey rest k v

/-- Keys of a store, in insertion order. -/
def storeKeys (s : Store) : List (Int × Int) := s.map Prod.fst

/-- Body of `convert_to_gold_equivalent`: walk the monthly series in order;
for each record look up `(year, month)` in the gold table. A hit divides
`priceM2_pln` by the gold price and rounds to 2 decimals; a miss records
`None`. A gold price of exactly `0` raises `ZeroDivisionError` in Python,
which aborts the whole conversion: modelled as `none` at top level. -/
def convert_to_gold_equivalent (gold : Store) : List MonthlyRecord → Option (List EnrichedMonthlyRecord)
  | [] => some []
  | r :: rest =>
      match lookupStore gold (r.year, r.month) with
      | some gp =>
          if gp = 0 then none
          else
            match convert_to_gold_equivalent gold rest with
            | some tail =>
                some (⟨r.year, r.month, r.priceM2_pln,
                       some (round2 (r.priceM2_pln / gp))⟩ :: tail)
            | none => none
      | none =>
          match convert_to_gold_equivalent gold rest with
          | some tail => some (⟨r.year, r.month, r.priceM2_pln, none⟩ :: tail)
          | none => none

/-- Character class of Python regex `\d` (ASCII digits). -/
def isPyDigit (c : Char) : Bool := '0' ≤ c && c ≤ '9'

/-- Character class of Python regex `\w` (letters, digits, underscore;
the source strings are ASCII). -/
def isWordChar (c : Char) : Bool := c.isAlphanum || c == '_'

/-- Character class of Python regex `\s`. -/
def isPySpace (c : Char) : Bool :=
  c == ' ' || c == '\t' || c == '\n' || c == '\x0b' || c == '\x0c' || c == '\r'

/-- Word boundary `\b` before a word character, given the previous character
of the scan (`none` at the start of the string). -/
def boundaryB : Option Char → Bool
  | none => true
  | some c => !(isWordChar c)

/-- Numeric value of a decimal digit character. -/
def digitVal (c : Char) : Int := (c.toNat : Int) - 48

/-- Attempt of regex `20\d{2}\b` at the current position (the leading `\b`
is checked by the caller via `boundaryB`). -/
def yearHere : List Char → Option Int
  | '2' :: '0' :: c3 :: c4 :: rest =>
      if isPyDigit c3 && isPyDigit c4 && rest.head?.all (fun r => !(isWordChar r)) then
        some (2000 + 10 * digitVal c3 + digitVal c4)
      else none
  | _ => none

/-- Leftmost search of `re.search(r'\b(20\d{2})\b', period_str)`:
scan positions left to right, remembering the previous character for the
word boundary. Returns the year value of the first match. -/
def yearSearch (prev : Option Char) : List Char → Option Int
  | [] => none
  | c :: cs =>
      match (if boundaryB prev then yearHere (c :: cs) else none) with
      | some y => some y
      | none => yearSearch (some c) cs

/-- Character class `[ivIV]` of the Roman-numeral rule. -/
def isRomanIV (c : Char) : Bool := c == 'i' || c == 'v' || c == 'I' || c == 'V'

/-- Attempt of `([ivIV]+)\s+(?:20\d{2})` at the current position. Since the
classes `[ivIV]`, `\s` and the literal `2` are pairwise disjoint, the greedy
quantifiers never backtrack: the match takes the maximal `[ivIV]` run, then
a maximal nonempty run of whitespace, then the literal year pattern.
Returns the captured group. -/
def romanHere (l : List Char) : Option (List Char) :=
  let run := l.takeWhile isRomanIV
  if run.isEmpty then none
  else
    let rest := l.dropWhile isRomanIV
    if (rest.takeWhile isPySpace).isEmpty then none
    else
      match rest.dropWhile isPySpace with
      | '2' :: '0' :: c3 :: c4 :: _ =>
          if isPyDigit c3 && isPyDigit c4 then some run else none
      | _ => none

/-- Leftmost search of `re.search(r'\b([ivIV]+)\s+(?:20\d{2})', period_str)`. -/
def romanSearch (prev : Option Char) : List Char → Option (List Char)
  | [] => none
  | c :: cs =>
      match (if boundaryB prev then romanHere (c :: cs) else none) with
      | some g => some g
      | none => romanSearch (some c) cs

/-- Lookup in the source dict `roman_to_int = {'i': 1, 'ii': 2, 'iii': 3,
'iv': 4}`. -/
def romanToInt : List Char → Option Int
  | ['i'] => some 1
  | ['i', 'i'] => some 2
  | ['i', 'i', 'i'] => some 3
  | ['i', 'v'] => some 4
  | _ => none

/-- Attempt of regex `q([1-4])` at the current position (on the lowered
string). -/
def qHere : List Char → Option Int
  | 'q' :: d :: _ => if '1' ≤ d && d ≤ '4' then some (digitVal d) else none
  | _ => none

/-- Leftmost search of `re.search(r'q([1-4])', period_lower)`. -/
def qSearch : List Char → Option Int
  | [] => none
  | c :: cs =>
      match qHere (c :: cs) with
      | some q => some q
      | none => qSearch cs

/-- Character class `[1-4ivVI]` of the localized `kw` rule. -/
def isKwClass (c : Char) : Bool :=
  ('1' ≤ c && c ≤ '4') || c == 'i' || c == 'v' || c == 'V' || c == 'I'

/-- Attempt of `([1-4ivVI]+)\s*kw` at the current position. The classes
`[1-4ivVI]`, `\s` and the literal `k` are pairwise disjoint, so the greedy
quantifiers never backtrack. Returns the captured group. -/
def kwHere (l : List Char) : Option (List Char) :=
  let run := l.takeWhile isKwClass
  if run.isEmpty then none
  else
    match (l.dropWhile isKwClass).dropWhile isPySpace with
    | 'k' :: 'w' :: _ => some run
    | _ => none

/-- Leftmost search of `re.search(r'([1-4ivVI]+)\s*kw', period_lower)`. -/
def kwSearch : List Char → Option (List Char)
  | [] => none
  | c :: cs =>
      match kwHere (c :: cs) with
      | some g => some g
      | none => kwSearch cs

/-- Python `int(q_str)` restricted to the characters a `kw` capture can
contain: succeeds exactly on a nonempty all-digit string. -/
def digitsToInt (l : List Char) : Option Int :=
  if !l.isEmpty && l.all isPyDigit then
    some (l.foldl (fun a c => 10 * a + digitVal c) 0)
  else none

/-- Substring test, Python `pat in s`. -/
def containsSub (pat : List Char) : List Char → Bool
  | [] => pat.isEmpty
  | c :: cs => pat.isPrefixOf (c :: cs) || containsSub pat cs

/-- Quarter resolution of the Roman-numeral rule, as a standalone function:
first match of `\b([ivIV]+)\s+(?:20\d{2})`, group lowered and looked up in
`roman_to_int`. -/
def romanQuarterRule (s : List Char) : Option Int :=
  match romanSearch none s with
  | some g => romanToInt (g.map Char.toLower)
  | none => none

/-- Quarter resolution of the `Q`-digit rule: guarded by `'q' in
period_lower`, then first match of `q([1-4])` on the lowered string. -/
def qQuarterRule (lower : List Char) : Option Int :=
  if lower.contains 'q' then qSearch lower else none

/-- Quarter resolution of the localized `kw` rule: guarded by `'kw' in
period_lower`, then first match of `([1-4ivVI]+)\s*kw` on the lowered
string; the group is looked up in `roman_to_int`, falling back to
`int(q_str)`. -/
def kwQuarterRule (lower : List Char) : Option Int :=
  if containsSub ['k', 'w'] lower then
    match kwSearch lower with
    | some g =>
        match romanToInt (g.map Char.toLower) with
        | some q => some q
        | none => digitsToInt g
    | none => none
  else none

/-- Transliteration of `_parse_period`: extract the year with
`\b(20\d{2})\b`, then resolve the quarter by the three sequential rules,
each attempted only while `quarter` is still `None`. Returns
`(year, quarter)`; the caller treats `None` in either slot as failure. -/
def parse_period (s : List Char) : Option Int × Option Int :=
  let periodLower := s.map Char.toLower
  let year : Option Int := yearSearch none s
  let quarter : Option Int := none
  let quarter : Option Int :=
    match quarter with
    | none =>
        (match romanSearch none s with
         | some g => romanToInt (g.map Char.toLower)
         | none => none)
    | some q => some q
  let quarter : Option Int :=
    match quarter with
    | none => if periodLower.contains 'q' then qSearch periodLower else none
    | some q => some q
  let quarter : Option Int :=
    match quarter with
    | none =>
        if containsSub ['k', 'w'] periodLower then
          (match kwSearch periodLower with
           | some g =>
               match romanToInt (g.map Char.toLower) with
               | some q => some q
               | none => digitsToInt g
           | none => none)
        else none
    | some q => some q
  (year, quarter)

/-- One spreadsheet cell as produced by `openpyxl` `values_only` iteration:
empty (`None`), text, or a number. -/
inductive Cell where
  | empty
  | str (s : List Char)
  | num (q : ℚ)
deriving DecidableEq

/-- Python truthiness of a cell value: `None`, the empty string and the
number `0` are falsy. -/
def Cell.truthy : Cell → Bool
  | .empty => false
  | .str s => !s.isEmpty
  | .num q => decide (q ≠ 0)

/-- Decimal rendering of an integer. -/
def intChars (i : Int) : List Char :=
  if i < 0 then '-' :: Nat.toDigits 10 i.natAbs else Nat.toDigits 10 i.natAbs

/-- Python `str(cell)`. Text cells give their text; numeric cells are
rendered as the exact rational (an abstraction of the float repr — the
settled claims do not depend on this rendering); `None` renders as
`"None"` but is only reached behind the truthiness guard. -/
def cellStr : Cell → List Char
  | .empty => ['N', 'o', 'n', 'e']
  | .str s => s
  | .num q =>
      if q.den = 1 then intChars q.num
      else intChars q.num ++ '/' :: Nat.toDigits 10 q.den

/-- Python `str.strip()` (whitespace from both ends). -/
def strip (l : List Char) : List Char :=
  ((l.dropWhile isPySpace).reverse.dropWhile isPySpace).reverse

/-- Value of a digit string (0 when empty). -/
def digitsNat (l : List Char) : ℚ := l.foldl (fun a c => 10 * a + ((c.toNat : ℚ) - 48)) 0

/-- Python `float()` on a string, restricted to plain decimal literals:
surrounding whitespace stripped, optional sign, integer digits, optional
`.` and fraction digits, at least one digit in total. Exponents, `inf` and
`nan` are outside the model; no settled claim depends on them. -/
def parseFloat (l0 : List Char) : Option ℚ :=
  let l1 := strip l0
  let l : List Char :=
    match l1 with
    | '+' :: t => t
    | '-' :: t => t
    | t => t
  let neg : Bool :=
    match l1 with
    | '-' :: _ => true
    | _ => false
  let ip := l.takeWhile isPyDigit
  let rest := l.dropWhile isPyDigit
  let mag : Option ℚ :=
    match rest with
    | [] => if ip.isEmpty then none else some (digitsNat ip)
    | '.' :: frac =>
        if frac.all isPyDigit && !(ip.isEmpty && frac.isEmpty) then
          some (digitsNat ip + digitsNat frac / (10 : ℚ) ^ frac.length)
        else none
    | _ => none
  mag.map (fun m => if neg then -m else m)

/-- Python `float(cell)` for a non-`None` cell: numbers pass through,
strings are parsed. -/
def cellFloat : Cell → Option ℚ
  | .empty => none
  | .str s => parseFloat s
  | .num q => some q

/-- The target-city substring `'warsza'` looked for in the header scan. -/
def warszaPat : List Char := ['w', 'a', 'r', 's', 'z', 'a']

/-- Header-scan cell test: `cell and 'warsza' in str(cell).lower()`. -/
def cellMatchesWarsaw (c : Cell) : Bool :=
  c.truthy && containsSub warszaPat ((cellStr c).map Char.toLower)

/-- Header scan loop: 1-based row index; the first row containing a
matching cell gives `(header_row, warsaw_col)` where `warsaw_col` is the
first matching cell index plus 1. -/
def findHeaderAux : Nat → List (List Cell) → Option (Nat × Nat)
  | _, [] => none
  | idx, row :: rest =>
      if row.any cellMatchesWarsaw then
        (row.findIdx? cellMatchesWarsaw).map (fun c => (idx, c + 1))
      else findHeaderAux (idx + 1) rest

/-- Header scan over at most the first 20 rows (`iter_rows(max_row=20)`). -/
def findHeader (grid : List (List Cell)) : Option (Nat × Nat) :=
  findHeaderAux 1 (grid.take 20)

/-- Data-row loop of `extract_warsaw_quarterly_prices`. Cell access
`row[0]` / `row[warsaw_col - 1]` raises `IndexError` on a short row
(modelled as `Except.error`); falsy cells skip the row; a failed period
parse or price parse skips the row; a surviving row emits one
`QuarterlyRecord`, in sheet order. -/
def extractRows (warsawCol : Nat) : List (List Cell) → Except String (List QuarterlyRecord)
  | [] => .ok []
  | row :: rest =>
      match row.get? 0, row.get? (warsawCol - 1) with
      | some periodCell, some priceCell =>
          if !periodCell.truthy || !priceCell.truthy then extractRows warsawCol rest
          else
            (match parse_period (strip (cellStr periodCell)) with
             | (some y, some q) =>
                 (match cellFloat priceCell with
                  | some p =>
                      (match extractRows warsawCol rest with
                       | .ok tail => .ok (⟨y, q, p⟩ :: tail)
                       | .error e => .error e)
                  | none => extractRows warsawCol rest)
             | _ => extractRows warsawCol rest)
      | _, _ => .error "IndexError"

/-- Whole extractor: header scan, then the data rows after the header row.
A missing header is the fatal `ValueError` of the source. -/
def extract_warsaw_quarterly_prices (grid : List (List Cell)) : Except String (List QuarterlyRecord) :=
  match findHeader grid with
  | none => .error "Warsaw column not found"
  | some (headerRow, warsawCol) => extractRows warsawCol (grid.drop headerRow)

/-- Sort key of `sorted(quarterly_prices, key=lambda x: (x['year'],
x['quarter']))`: lexicographic on `(year, quarter)`. -/
def qLe (a b : QuarterlyRecord) : Prop :=
  a.year < b.year ∨ (a.year = b.year ∧ a.quarter ≤ b.quarter)

instance : DecidableRel qLe := fun a b =>
  inferInstanceAs (Decidable (a.year < b.year ∨ (a.year = b.year ∧ a.quarter ≤ b.quarter)))

instance : IsTotal QuarterlyRecord qLe := ⟨fun a b => by unfold qLe; omega⟩

instance : IsTrans QuarterlyRecord qLe := ⟨fun a b c => by unfold qLe; omega⟩

/-- The sorted quarterly list (Python `sorted` is stable; so is insertion
sort). -/
def sortedQ (qs : List QuarterlyRecord) : List QuarterlyRecord := List.insertionSort qLe qs

/-- Pass 1 body: broadcast one quarter's price to its three months,
skipping month numbers above 12 (`if month <= 12`). -/
def broadcastEntry (s : Store) (e : QuarterlyRecord) : Store :=
  let startMonth := (e.quarter - 1) * 3 + 1
  ([0, 1, 2] : List Int).foldl
    (fun st off =>
      let month := startMonth + off
      if month ≤ 12 then insertKey st (e.year, month) e.priceM2 else st)
    s

/-- Pass 1 over the sorted list, starting from the empty dict. -/
def pass1 (l : List QuarterlyRecord) : Store := l.foldl broadcastEntry []

/-- Mid-quarter month index of a record, relative to epoch year 2006:
`(year - 2006) * 12 + (quarter - 1) * 3 + 2`. -/
def midIdx (e : QuarterlyRecord) : Int := (e.year - 2006) * 12 + (e.quarter - 1) * 3 + 2

/-- Year reconstruction `2006 + (total_months - 1) // 12`. -/
def yearOfIdx (t : Int) : Int := 2006 + (t - 1) / 12

/-- Month reconstruction `((total_months - 1) % 12) + 1`. -/
def monthOfIdx (t : Int) : Int := (t - 1) % 12 + 1

/-- The `(year, month)` key of a 1-based flat month index. -/
def keyOfIdx (t : Int) : Int × Int := (yearOfIdx t, monthOfIdx t)

/-- Flat month index of a `(year, month)` key. -/
def idxOfKey (k : Int × Int) : Int := (k.1 - 2006) * 12 + k.2

/-- The interpolation formula `price1 + (price2 - price1) * (step /
num_steps)`. -/
def interpPrice (p1 p2 : ℚ) (step : ℕ) (numSteps : Int) : ℚ :=
  p1 + (p2 - p1) * ((step : ℚ) / (numSteps : ℚ))

/-- One iteration of the Pass 2 inner loop: compute the interpolated price
and the calendar position, and write it (rounded) only when the month is in
range and the key is not already present. -/
def interpStep (e1 e2 : QuarterlyRecord) (numSteps : Int) (s : Store) (step : ℕ) : Store :=
  let ip := interpPrice e1.priceM2 e2.priceM2 step numSteps
  let t := midIdx e1 + (step : Int)
  let cy := yearOfIdx t
  let cm := monthOfIdx t
  if 1 ≤ cm ∧ cm ≤ 12 then
    match lookupStore s (cy, cm) with
    | some _ => s
    | none => insertKey s (cy, cm) (round2 ip)
  else s

/-- Pass 2 body for one adjacent pair: when the mid-quarter indices are
more than 3 apart, run the inner loop over `range(1, num_steps)`. -/
def interpPair (s : Store) (e1 e2 : QuarterlyRecord) : Store :=
  let month1 := midIdx e1
  let month2 := midIdx e2
  if month1 + 3 < month2 then
    let numSteps := month2 - month1
    (List.range' 1 (numSteps.toNat - 1)).foldl (interpStep e1 e2 numSteps) s
  else s

/-- Pass 2 over all adjacent pairs of the sorted list
(`for i, entry in enumerate(sorted_prices[:-1])` with `sorted_prices[i+1]`). -/
def pass2 (s : Store) (l : List QuarterlyRecord) : Store :=
  (l.zip l.tail).foldl (fun st p => interpPair st p.1 p.2) s

/-- The dict `monthly_prices` after both passes. -/
def finalStore (qs : List QuarterlyRecord) : Store :=
  pass2 (pass1 (sortedQ qs)) (sortedQ qs)

/-- Comparison used by `sorted(monthly_prices.items())`: Python tuple
order on `((year, month), price)`. -/
def pairLe (a b : (Int × Int) × ℚ) : Prop :=
  a.1.1 < b.1.1 ∨
    (a.1.1 = b.1.1 ∧ (a.1.2 < b.1.2 ∨ (a.1.2 = b.1.2 ∧ a.2 ≤ b.2)))

instance : DecidableRel pairLe := fun a b =>
  inferInstanceAs (Decidable (a.1.1 < b.1.1 ∨
    (a.1.1 = b.1.1 ∧ (a.1.2 < b.1.2 ∨ (a.1.2 = b.1.2 ∧ a.2 ≤ b.2)))))

instance : IsTotal ((Int × Int) × ℚ) pairLe :=
  ⟨fun a b => by
    unfold pairLe
    rcases lt_trichotomy a.1.1 b.1.1 with h | h | h
    · exact Or.inl (Or.inl h)
    · rcases lt_trichotomy a.1.2 b.1.2 with h2 | h2 | h2
      · exact Or.inl (Or.inr ⟨h, Or.inl h2⟩)
      · rcases le_total a.2 b.2 with h3 | h3
        · exact Or.inl (Or.inr ⟨h, Or.inr ⟨h2, h3⟩⟩)
        · exact Or.inr (Or.inr ⟨h.symm, Or.inr ⟨h2.symm, h3⟩⟩)
      · exact Or.inr (Or.inr ⟨h.symm, Or.inl h2⟩)
    · exact Or.inr (Or.inl h)⟩

instance : IsTrans ((Int × Int) × ℚ) pairLe :=
  ⟨fun a b c hab hbc => by
    unfold pairLe at hab hbc ⊢
    rcases hab with h | ⟨he, h⟩
    · rcases hbc with h2 | ⟨he2, _⟩
      · exact Or.inl (h.trans h2)
      · exact Or.inl (he2 ▸ h)
    · rcases hbc with h2 | ⟨he2, h3⟩
      · exact Or.inl (he ▸ h2)
      · refine Or.inr ⟨he.trans he2, ?_⟩
        rcases h with h | ⟨hm, hp⟩
        · rcases h3 with h3 | ⟨hm3, _⟩
          · exact Or.inl (h.trans h3)
          · exact Or.inl (hm3 ▸ h)
        · rcases h3 with h3 | ⟨hm3, hp3⟩
          · exact Or.inl (hm ▸ h3)
          · exact Or.inr ⟨hm.trans hm3, hp.trans hp3⟩⟩

/-- Body of `interpolate_quarterly_to_monthly`: early return on an empty
input, otherwise sort, run both passes, and emit the dict entries in
ascending key order, rounding every price at emission. -/
def interpolate_quarterly_to_monthly (qs : List QuarterlyRecord) : List MonthlyRecord :=
  if qs = [] then []
  else
    (List.insertionSort pairLe (finalStore qs)).map
      (fun kv => ⟨kv.1.1, kv.1.2, round2 kv.2⟩)

/-- Model of `main` after a successful fetch: extract (fatal header error
or `IndexError` aborts), abort on an empty extraction, interpolate, abort
on an empty result, load the gold table (a missing or malformed file
aborts), convert (a zero gold price aborts), and abort when no entry
converted (the `min()` over an empty sequence in the summary). The first
component is the process exit code; the second is the written output file,
`none` when nothing is written. -/
def mainPipeline (grid : List (List Cell)) (goldFile : Option Store) :
    Int × Option (List EnrichedMonthlyRecord) :=
  match extract_warsaw_quarterly_prices grid with
  | .error _ => (1, none)
  | .ok qs =>
      if qs = [] then (1, none)
      else
        let ms := interpolate_quarterly_to_monthly qs
        if ms = [] then (1, none)
        else
          match goldFile with
          | none => (1, none)
          | some gold =>
              match convert_to_gold_equivalent gold ms with
              | none => (1, none)
              | some out =>
                  if out.filter (fun e => e.priceM2_gold.isSome) = [] then (1, none)
                  else (0, some out)

/-- Lexicographic order on `(year, month)` keys. -/
def keyLe (a b : Int × Int) : Prop := a.1 < b.1 ∨ (a.1 = b.1 ∧ a.2 ≤ b.2)

/-- Strict lexicographic order on `(year, month)` keys. -/
def keyLt (a b : Int × Int) : Prop := a.1 < b.1 ∨ (a.1 = b.1 ∧ a.2 < b.2)

instance : DecidableRel keyLe := fun a b =>
  inferInstanceAs (Decidable (a.1 < b.1 ∨ (a.1 = b.1 ∧ a.2 ≤ b.2)))

instance : DecidableRel keyLt := fun a b =>
  inferInstanceAs (Decidable (a.1 < b.1 ∨ (a.1 = b.1 ∧ a.2 < b.2)))

instance : IsTotal (Int × Int) keyLe := ⟨fun a b => by unfold keyLe; omega⟩

instance : IsTrans (Int × Int) keyLe := ⟨fun a b c => by unfold keyLe; omega⟩

instance : IsAntisymm (Int × Int) keyLe :=
  ⟨fun a b h1 h2 => by
    obtain ⟨x, y⟩ := a
    obtain ⟨u, v⟩ := b
    unfold keyLe at h1 h2
    simp only [Prod.mk.injEq]
    omega⟩

/-- The list of `n` consecutive integers starting at `a`. -/
def idxList (a : Int) : Nat → List Int
  | 0 => []
  | n + 1 => a :: idxList (a + 1) n

/-- The contiguous list of `(year, month)` keys for flat month indices
`a, a + 1, ..., b`. -/
def monthRange (a b : Int) : List (Int × Int) :=
  (idxList a (b + 1 - a).toNat).map keyOfIdx

/-- Quarter-in-range side condition `1 ≤ quarter ≤ 4` of the data model. -/
def QOK (e : QuarterlyRecord) : Prop := 1 ≤ e.quarter ∧ e.quarter ≤ 4

instance : DecidablePred QOK := fun e =>
  inferInstanceAs (Decidable (1 ≤ e.quarter ∧ e.quarter ≤ 4))

/-- Row filter in the language of the amended C8 claim: a data row is
skipped exactly when the period cell or the target-column cell is falsy
(empty, empty string or numeric zero), the Period Parser fails on the
stripped period text, or the price cell does not parse as a number; a
surviving row yields one QuarterlyRecord. -/
def keepRow (warsawCol : Nat) (row : List Cell) : Option QuarterlyRecord :=
  match row.get? 0, row.get? (warsawCol - 1) with
  | some periodCell, some priceCell =>
      if periodCell.truthy && priceCell.truthy then
        match parse_period (strip (cellStr periodCell)) with
        | (some y, some q) =>
            (match cellFloat priceCell with
             | some p => some ⟨y, q, p⟩
             | none => none)
        | _ => none
      else none
  | _, _ => none

/-- First month index of a record's quarter. -/
def startIdx (e : QuarterlyRecord) : Int := midIdx e - 1

/-- Last month index of a record's quarter. -/
def endIdx (e : QuarterlyRecord) : Int := midIdx e + 1

theorem roundHalfEven_intCast (k : ℤ) : roundHalfEven (k : ℚ) = k := by
  have hq : qfloor (k : ℚ) = k := by
    unfold qfloor
    rw [Rat.intCast_num, Rat.intCast_den]
    simp
  unfold roundHalfEven
  rw [hq]
  norm_num

theorem round2_eq_int_div (x : ℚ) : round2 x = ((roundHalfEven (x * 100) : ℤ) : ℚ) / 100 := rfl

theorem round2_mul_100_int (x : ℚ) : ∃ n : ℤ, round2 x * 100 = (n : ℚ) := by
  refine ⟨roundHalfEven (x * 100), ?_⟩
  unfold round2
  field_simp

theorem round2_round2 (x : ℚ) : round2 (round2 x) = round2 x := by
  unfold round2
  have h : ((roundHalfEven (x * 100) : ℤ) : ℚ) / 100 * 100 = ((roundHalfEven (x * 100) : ℤ) : ℚ) := by
    field_simp
  rw [h, roundHalfEven_intCast]

theorem lookup_insert (s : Store) (k : Int × Int) (v : ℚ) (k2 : Int × Int) :
    lookupStore (insertKey s k v) k2 = if k2 = k then some v else lookupStore s k2 := by
  induction s with
  | nil => by_cases h : k2 = k <;> simp [insertKey, lookupStore, h]
  | cons hd tl ih =>
      obtain ⟨k0, v0⟩ := hd
      by_cases h : k = k0
      · subst h
        by_cases h2 : k2 = k <;> simp [insertKey, lookupStore, h2]
      · by_cases h2 : k2 = k0
        · subst h2
          have hne : ¬ k2 = k := fun he => h he.symm
          simp [insertKey, lookupStore, h, hne]
        · simp [insertKey, lookupStore, h, h2, ih]

theorem lookup_some_mem {s : Store} {k : Int × Int} {v : ℚ}
    (h : lookupStore s k = some v) : (k, v) ∈ s := by
  induction s with
  | nil => simp [lookupStore] at h
  | cons hd tl ih =>
      obtain ⟨k0, v0⟩ := hd
      by_cases h2 : k = k0
      · subst h2
        simp [lookupStore] at h
        rw [← h]
        exact List.mem_cons_self _ _
      · simp only [lookupStore, if_neg h2] at h
        exact List.mem_cons_of_mem _ (ih h)

theorem mem_storeKeys_iff {s : Store} {k : Int × Int} :
    k ∈ storeKeys s ↔ (lookupStore s k).isSome := by
  induction s with
  | nil => simp [storeKeys, lookupStore]
  | cons hd tl ih =>
      obtain ⟨k0, v0⟩ := hd
      by_cases h2 : k = k0
      · subst h2
        simp [storeKeys, lookupStore]
      · simp only [storeKeys, List.map_cons, List.mem_cons, lookupStore, if_neg h2]
        rw [← ih]
        simp only [storeKeys]
        constructor
        · rintro (he | hm)
          · exact absurd he h2
          · exact hm
        · exact fun hm => Or.inr hm

theorem lookup_of_mem_nodup {s : Store} {k : Int × Int} {v : ℚ}
    (hnd : (storeKeys s).Nodup) (h : (k, v) ∈ s) :
    lookupStore s k = some v := by
  induction s with
  | nil => simp at h
  | cons hd tl ih =>
      obtain ⟨k0, v0⟩ := hd
      simp only [storeKeys, List.map_cons, List.nodup_cons] at hnd
      rcases List.mem_cons.mp h with he | hm
      · have hk : k = k0 := congrArg Prod.fst he
        have hv : v = v0 := congrArg Prod.snd he
        subst hk
        subst hv
        simp [lookupStore]
      · by_cases h2 : k = k0
        · exfalso
          apply hnd.1
          subst h2
          exact List.mem_map_of_mem Prod.fst hm
        · simp only [lookupStore, if_neg h2]
          exact ih hnd.2 hm

theorem mem_storeKeys_insert {s : Store} {k : Int × Int} {v : ℚ} {k2 : Int × Int} :
    k2 ∈ storeKeys (insertKey s k v) ↔ k2 = k ∨ k2 ∈ storeKeys s := by
  rw [mem_storeKeys_iff, lookup_insert, mem_storeKeys_iff]
  by_cases h : k2 = k <;> simp [h]

theorem nodup_insertKey {s : Store} (k : Int × Int) (v : ℚ)
    (h : (storeKeys s).Nodup) : (storeKeys (insertKey s k v)).Nodup := by
  induction s with
  | nil => simp [insertKey, storeKeys]
  | cons hd tl ih =>
      obtain ⟨k0, v0⟩ := hd
      by_cases h2 : k = k0
      · subst h2
        simpa [insertKey, storeKeys] using h
      · simp only [storeKeys, List.map_cons, List.nodup_cons] at h
        show (storeKeys (insertKey ((k0, v0) :: tl) k v)).Nodup
        simp only [insertKey, if_neg h2, storeKeys, List.map_cons, List.nodup_cons]
        refine ⟨?_, ih h.2⟩
        intro hmem
        rcases mem_storeKeys_insert.mp hmem with he | hm
        · exact h2 he.symm
        · exact h.1 hm

theorem monthOfIdx_bounds (t : Int) : 1 ≤ monthOfIdx t ∧ monthOfIdx t ≤ 12 := by
  unfold monthOfIdx
  omega

theorem keyOfIdx_ym {y m : Int} (h1 : 1 ≤ m) (h2 : m ≤ 12) :
    keyOfIdx ((y - 2006) * 12 + m) = (y, m) := by
  unfold keyOfIdx yearOfIdx monthOfIdx
  simp only [Prod.mk.injEq]
  omega

theorem idxOfKey_keyOfIdx (t : Int) : idxOfKey (keyOfIdx t) = t := by
  unfold idxOfKey keyOfIdx yearOfIdx monthOfIdx
  simp only
  omega

theorem keyOfIdx_inj {t t2 : Int} (h : keyOfIdx t = keyOfIdx t2) : t = t2 := by
  have := congrArg idxOfKey h
  rwa [idxOfKey_keyOfIdx, idxOfKey_keyOfIdx] at this

theorem keyOfIdx_lt {t t2 : Int} (h : t < t2) : keyLt (keyOfIdx t) (keyOfIdx t2) := by
  unfold keyLt keyOfIdx yearOfIdx monthOfIdx
  simp only
  omega

theorem foldl_lookup_preserved {β : Type} (g : Store → β → Store)
    (hg : ∀ st b k v, lookupStore st k = some v → lookupStore (g st b) k = some v)
    (l : List β) (s : Store) (k : Int × Int) (v : ℚ)
    (h : lookupStore s k = some v) :
    lookupStore (l.foldl g s) k = some v := by
  induction l generalizing s with
  | nil => exact h
  | cons hd tl ih => exact ih _ (hg _ _ _ _ h)

theorem foldl_isSome_preserved {β : Type} (g : Store → β → Store)
    (hg : ∀ st b k, (lookupStore st k).isSome → (lookupStore (g st b) k).isSome)
    (l : List β) (s : Store) (k : Int × Int)
    (h : (lookupStore s k).isSome) :
    (lookupStore (l.foldl g s) k).isSome := by
  induction l generalizing s with
  | nil => exact h
  | cons hd tl ih => exact ih _ (hg _ _ _ h)

theorem insertKey_isSome {s : Store} {k : Int × Int} (k2 : Int × Int) (v : ℚ)
    (h : (lookupStore s k).isSome) : (lookupStore (insertKey s k2 v) k).isSome := by
  rw [lookup_insert]
  by_cases h2 : k = k2 <;> simp [h2, h]

theorem interpStep_lookup_ne (e1 e2 : QuarterlyRecord) (ns : Int) (s : Store) (step : ℕ)
    {k : Int × Int} (hk : k ≠ keyOfIdx (midIdx e1 + (step : Int))) :
    lookupStore (interpStep e1 e2 ns s step) k = lookupStore s k := by
  simp only [interpStep]
  split
  · split
    · rfl
    · rw [lookup_insert]
      exact if_neg hk
  · rfl

theorem interpStep_preserves (e1 e2 : QuarterlyRecord) (ns : Int) (s : Store) (step : ℕ)
    {k : Int × Int} {v : ℚ} (h : lookupStore s k = some v) :
    lookupStore (interpStep e1 e2 ns s step) k = some v := by
  by_cases hk : k = keyOfIdx (midIdx e1 + (step : Int))
  · subst hk
    simp only [interpStep, keyOfIdx] at h ⊢
    split
    · simp only [h]
    · exact h
  · rw [interpStep_lookup_ne _ _ _ _ _ hk]
    exact h

theorem interpStep_writes (e1 e2 : QuarterlyRecord) (ns : Int) (s : Store) (step : ℕ)
    (hnone : lookupStore s (keyOfIdx (midIdx e1 + (step : Int))) = none) :
    lookupStore (interpStep e1 e2 ns s step) (keyOfIdx (midIdx e1 + (step : Int)))
      = some (round2 (interpPrice e1.priceM2 e2.priceM2 step ns)) := by
  have hb := monthOfIdx_bounds (midIdx e1 + (step : Int))
  simp only [interpStep, keyOfIdx] at hnone ⊢
  rw [if_pos hb]
  simp only [hnone]
  rw [lookup_insert, if_pos rfl]

theorem foldl_interpStep_lookup_ne (e1 e2 : QuarterlyRecord) (ns : Int) (L : List ℕ)
    (s : Store) {k : Int × Int}
    (hk : ∀ st ∈ L, k ≠ keyOfIdx (midIdx e1 + (st : Int))) :
    lookupStore (L.foldl (interpStep e1 e2 ns) s) k = lookupStore s k := by
  induction L generalizing s with
  | nil => rfl
  | cons hd tl ih =>
      rw [List.foldl_cons, ih _ (fun st hst => hk st (List.mem_cons_of_mem _ hst)),
        interpStep_lookup_ne _ _ _ _ _ (hk hd (List.mem_cons_self _ _))]

theorem foldl_interpStep_writes (e1 e2 : QuarterlyRecord) (ns : Int) (L : List ℕ)
    (s : Store) (step : ℕ) (hmem : step ∈ L)
    (hnone : lookupStore s (keyOfIdx (midIdx e1 + (step : Int))) = none) :
    lookupStore (L.foldl (interpStep e1 e2 ns) s) (keyOfIdx (midIdx e1 + (step : Int)))
      = some (round2 (interpPrice e1.priceM2 e2.priceM2 step ns)) := by
  induction L generalizing s with
  | nil => cases hmem
  | cons hd tl ih =>
      rw [List.foldl_cons]
      by_cases he : hd = step
      · subst he
        exact foldl_lookup_preserved _
          (fun st b k2 v2 h2 => interpStep_preserves _ _ _ _ _ h2) _ _ _ _
          (interpStep_writes e1 e2 ns s hd hnone)
      · rcases List.mem_cons.mp hmem with h | h
        · exact absurd h.symm he
        · refine ih _ h ?_
          rw [interpStep_lookup_ne _ _ _ _ _ ?hne]
          · exact hnone
          case hne =>
            intro hkeq
            have hinj := keyOfIdx_inj hkeq
            exact he (by omega)

theorem interpPair_of_gap (s : Store) (e1 e2 : QuarterlyRecord)
    (h : midIdx e1 + 3 < midIdx e2) :
    interpPair s e1 e2 = (List.range' 1 ((midIdx e2 - midIdx e1).toNat - 1)).foldl
      (interpStep e1 e2 (midIdx e2 - midIdx e1)) s := by
  simp only [interpPair, if_pos h]

theorem interpPair_of_no_gap (s : Store) (e1 e2 : QuarterlyRecord)
    (h : ¬ midIdx e1 + 3 < midIdx e2) :
    interpPair s e1 e2 = s := by
  simp only [interpPair, if_neg h]

theorem interpPair_preserves (s : Store) (e1 e2 : QuarterlyRecord)
    {k : Int × Int} {v : ℚ} (h : lookupStore s k = some v) :
    lookupStore (interpPair s e1 e2) k = some v := by
  by_cases hg : midIdx e1 + 3 < midIdx e2
  · rw [interpPair_of_gap _ _ _ hg]
    exact foldl_lookup_preserved _
      (fun st b k2 v2 h2 => interpStep_preserves _ _ _ _ _ h2) _ _ _ _ h
  · rw [interpPair_of_no_gap _ _ _ hg]
    exact h

theorem interpPair_isSome (s : Store) (e1 e2 : QuarterlyRecord)
    {k : Int × Int} (h : (lookupStore s k).isSome) :
    (lookupStore (interpPair s e1 e2) k).isSome := by
  obtain ⟨v, hv⟩ := Option.isSome_iff_exists.mp h
  rw [interpPair_preserves s e1 e2 hv]
  rfl

theorem interpPair_lookup_outside (s : Store) (e1 e2 : QuarterlyRecord)
    {k : Int × Int}
    (hk : ∀ t : Int, midIdx e1 < t → t < midIdx e2 → k ≠ keyOfIdx t) :
    lookupStore (interpPair s e1 e2) k = lookupStore s k := by
  by_cases hg : midIdx e1 + 3 < midIdx e2
  · rw [interpPair_of_gap _ _ _ hg]
    apply foldl_interpStep_lookup_ne
    intro st hst
    have hb := List.mem_range'_1.mp hst
    apply hk
    · omega
    · omega
  · rw [interpPair_of_no_gap _ _ _ hg]

theorem interpPair_covers (s : Store) (e1 e2 : QuarterlyRecord)
    (hg : midIdx e1 + 3 < midIdx e2) (step : ℕ)
    (h1 : 1 ≤ step) (h2 : (step : Int) < midIdx e2 - midIdx e1) :
    (lookupStore (interpPair s e1 e2) (keyOfIdx (midIdx e1 + (step : Int)))).isSome := by
  cases hls : lookupStore s (keyOfIdx (midIdx e1 + (step : Int))) with
  | some v =>
      rw [interpPair_preserves s e1 e2 hls]
      rfl
  | none =>
      rw [interpPair_of_gap _ _ _ hg,
        foldl_interpStep_writes e1 e2 _ _ s step (List.mem_range'_1.mpr ⟨h1, by omega⟩) hls]
      rfl

theorem interpPair_writes (s : Store) (e1 e2 : QuarterlyRecord)
    (hg : midIdx e1 + 3 < midIdx e2) (step : ℕ)
    (h1 : 1 ≤ step) (h2 : (step : Int) < midIdx e2 - midIdx e1)
    (hnone : lookupStore s (keyOfIdx (midIdx e1 + (step : Int))) = none) :
    lookupStore (interpPair s e1 e2) (keyOfIdx (midIdx e1 + (step : Int)))
      = some (round2 (interpPrice e1.priceM2 e2.priceM2 step (midIdx e2 - midIdx e1))) := by
  rw [interpPair_of_gap _ _ _ hg]
  exact foldl_interpStep_writes e1 e2 _ _ s step (List.mem_range'_1.mpr ⟨h1, by omega⟩) hnone

theorem broadcastEntry_eq (s : Store) (e : QuarterlyRecord) (hq : QOK e) :
    broadcastEntry s e =
      insertKey (insertKey (insertKey s (e.year, (e.quarter - 1) * 3 + 1) e.priceM2)
        (e.year, (e.quarter - 1) * 3 + 2) e.priceM2)
        (e.year, (e.quarter - 1) * 3 + 3) e.priceM2 := by
  obtain ⟨hq1, hq4⟩ := hq
  simp only [broadcastEntry, List.foldl_cons, List.foldl_nil]
  rw [if_pos (by omega : (e.quarter - 1) * 3 + 1 + 0 ≤ 12),
    if_pos (by omega : (e.quarter - 1) * 3 + 1 + 1 ≤ 12),
    if_pos (by omega : (e.quarter - 1) * 3 + 1 + 2 ≤ 12),
    show (e.quarter - 1) * 3 + 1 + 0 = (e.quarter - 1) * 3 + 1 from by ring,
    show (e.quarter - 1) * 3 + 1 + 1 = (e.quarter - 1) * 3 + 2 from by ring,
    show (e.quarter - 1) * 3 + 1 + 2 = (e.quarter - 1) * 3 + 3 from by ring]

theorem broadcastEntry_lookup_in (s : Store) (e : QuarterlyRecord) (hq : QOK e)
    {m : Int} (h1 : (e.quarter - 1) * 3 + 1 ≤ m) (h2 : m ≤ (e.quarter - 1) * 3 + 3) :
    lookupStore (broadcastEntry s e) (e.year, m) = some e.priceM2 := by
  rw [broadcastEntry_eq s e hq, lookup_insert, lookup_insert, lookup_insert]
  simp only [Prod.mk.injEq, true_and]
  rcases (by omega :
      m = (e.quarter - 1) * 3 + 1 ∨ m = (e.quarter - 1) * 3 + 2 ∨ m = (e.quarter - 1) * 3 + 3)
    with h | h | h <;> subst h <;> split_ifs <;> first | rfl | omega

theorem broadcastEntry_lookup_ne (s : Store) (e : QuarterlyRecord) (hq : QOK e)
    {k : Int × Int}
    (hk : ∀ m : Int, (e.quarter - 1) * 3 + 1 ≤ m → m ≤ (e.quarter - 1) * 3 + 3 → k ≠ (e.year, m)) :
    lookupStore (broadcastEntry s e) k = lookupStore s k := by
  rw [broadcastEntry_eq s e hq, lookup_insert, lookup_insert, lookup_insert,
    if_neg (hk _ (by omega) (by omega)), if_neg (hk _ (by omega) (by omega)),
    if_neg (hk _ (by omega) (by omega))]

theorem broadcastEntry_isSome (s : Store) (e : QuarterlyRecord) {k : Int × Int}
    (h : (lookupStore s k).isSome) : (lookupStore (broadcastEntry s e) k).isSome := by
  simp only [broadcastEntry]
  apply foldl_isSome_preserved _ ?hg _ _ _ h
  case hg =>
    intro st b k2 hk2
    dsimp only
    split
    · exact insertKey_isSome _ _ hk2
    · exact hk2

theorem pass1_covers {l : List QuarterlyRecord} {e : QuarterlyRecord}
    (he : e ∈ l) (hq : QOK e) {t : Int}
    (h1 : startIdx e ≤ t) (h2 : t ≤ endIdx e) :
    (lookupStore (pass1 l) (keyOfIdx t)).isSome := by
  obtain ⟨l1, l2, rfl⟩ := List.append_of_mem he
  unfold pass1
  rw [List.foldl_append, List.foldl_cons]
  apply foldl_isSome_preserved _ (fun st b k hk => broadcastEntry_isSome st b hk)
  obtain ⟨hqa, hqb⟩ := hq
  have hm1 : (e.quarter - 1) * 3 + 1 ≤ t - (e.year - 2006) * 12 := by
    unfold startIdx midIdx at h1
    omega
  have hm2 : t - (e.year - 2006) * 12 ≤ (e.quarter - 1) * 3 + 3 := by
    unfold endIdx midIdx at h2
    omega
  have hkey : keyOfIdx t = (e.year, t - (e.year - 2006) * 12) := by
    conv_lhs => rw [show t = (e.year - 2006) * 12 + (t - (e.year - 2006) * 12) from by ring]
    exact keyOfIdx_ym (by omega) (by omega)
  rw [hkey, broadcastEntry_lookup_in _ _ ⟨hqa, hqb⟩ hm1 hm2]
  rfl

theorem pass1_bound_aux (P : (Int × Int) → Prop) (l : List QuarterlyRecord)
    (hl : ∀ e ∈ l, QOK e ∧
      ∀ m : Int, (e.quarter - 1) * 3 + 1 ≤ m → m ≤ (e.quarter - 1) * 3 + 3 → P (e.year, m))
    (s : Store) (hs : ∀ k, (lookupStore s k).isSome → P k) :
    ∀ k, (lookupStore (l.foldl broadcastEntry s) k).isSome → P k := by
  induction l generalizing s with
  | nil => exact hs
  | cons e tl ih =>
      rw [List.foldl_cons]
      apply ih (fun e2 he2 => hl e2 (List.mem_cons_of_mem _ he2))
      intro k hk
      obtain ⟨hq, hP⟩ := hl e (List.mem_cons_self _ _)
      by_cases hcase :
          ∀ m : Int, (e.quarter - 1) * 3 + 1 ≤ m → m ≤ (e.quarter - 1) * 3 + 3 → k ≠ (e.year, m)
      · rw [broadcastEntry_lookup_ne s e hq hcase] at hk
        exact hs k hk
      · push_neg at hcase
        obtain ⟨m, hm1, hm2, hkm⟩ := hcase
        exact hkm ▸ hP m hm1 hm2

theorem pass2_bound_aux (P : (Int × Int) → Prop)
    (pairs : List (QuarterlyRecord × QuarterlyRecord))
    (hl : ∀ p ∈ pairs, ∀ t : Int, midIdx p.1 < t → t < midIdx p.2 → P (keyOfIdx t))
    (s : Store) (hs : ∀ k, (lookupStore s k).isSome → P k) :
    ∀ k, (lookupStore (pairs.foldl (fun st p => interpPair st p.1 p.2) s) k).isSome → P k := by
  induction pairs generalizing s with
  | nil => exact hs
  | cons p tl ih =>
      rw [List.foldl_cons]
      apply ih (fun q hqm => hl q (List.mem_cons_of_mem _ hqm))
      intro k hk
      by_cases hcase : ∀ t : Int, midIdx p.1 < t → t < midIdx p.2 → k ≠ keyOfIdx t
      · rw [interpPair_lookup_outside _ _ _ hcase] at hk
        exact hs k hk
      · push_neg at hcase
        obtain ⟨t, ht1, ht2, hkt⟩ := hcase
        exact hkt ▸ hl p (List.mem_cons_self _ _) t ht1 ht2

theorem getLast?_some_mem {α : Type} {l : List α} {x : α} (h : l.getLast? = some x) : x ∈ l := by
  obtain ⟨hne, heq⟩ := List.mem_getLast?_eq_getLast (by rw [h]; exact Option.mem_def.mpr rfl)
  rw [heq]
  exact List.getLast_mem hne

theorem qLe_refl (e : QuarterlyRecord) : qLe e e := Or.inr ⟨rfl, le_refl _⟩

theorem midIdx_mono {a b : QuarterlyRecord} (h : qLe a b) (ha : QOK a) (hb : QOK b) :
    midIdx a ≤ midIdx b := by
  obtain ⟨ha1, ha4⟩ := ha
  obtain ⟨hb1, hb4⟩ := hb
  unfold qLe at h
  unfold midIdx
  omega

theorem sorted_head_le {l : List QuarterlyRecord} (hs : List.Sorted qLe l)
    {e1 : QuarterlyRecord} (h : l.head? = some e1) :
    ∀ e ∈ l, qLe e1 e := by
  cases l with
  | nil => cases h
  | cons a t =>
      simp only [List.head?_cons, Option.some.injEq] at h
      subst h
      intro e he
      rcases List.mem_cons.mp he with rfl | hm
      · exact qLe_refl e
      · exact (List.pairwise_cons.mp hs).1 e hm

theorem sorted_le_last {l : List QuarterlyRecord} (hs : List.Sorted qLe l)
    {en : QuarterlyRecord} (h : l.getLast? = some en) :
    ∀ e ∈ l, qLe e en := by
  induction l with
  | nil => cases h
  | cons a t ih =>
      intro e he
      cases t with
      | nil =>
          simp only [List.getLast?_singleton, Option.some.injEq] at h
          subst h
          rcases List.mem_singleton.mp he with rfl
          exact qLe_refl _
      | cons b t2 =>
          rw [List.getLast?_cons_cons] at h
          rcases List.mem_cons.mp he with rfl | hm
          · have hmem : en ∈ b :: t2 := getLast?_some_mem h
            exact (List.pairwise_cons.mp hs).1 en hmem
          · exact ih (List.pairwise_cons.mp hs).2 h e hm

theorem sorted_zip_adj {l : List QuarterlyRecord} (hs : List.Sorted qLe l) :
    ∀ p ∈ l.zip l.tail, qLe p.1 p.2 := by
  induction l with
  | nil => intro p hp; cases hp
  | cons a t ih =>
      cases t with
      | nil => intro p hp; simp [List.zip] at hp
      | cons b t2 =>
          intro p hp
          rw [List.tail_cons, List.zip_cons_cons] at hp
          rcases List.mem_cons.mp hp with rfl | hm
          · exact (List.pairwise_cons.mp hs).1 b (List.mem_cons_self _ _)
          · have hs2 : List.Sorted qLe (b :: t2) := (List.pairwise_cons.mp hs).2
            have := ih hs2 p
            rw [List.tail_cons] at this
            exact this hm

theorem sorted_zip_pairwise {l : List QuarterlyRecord} (hs : List.Sorted qLe l)
    (hq : ∀ e ∈ l, QOK e) :
    List.Pairwise (fun p q => midIdx p.2 ≤ midIdx q.1) (l.zip l.tail) := by
  induction l with
  | nil => exact List.Pairwise.nil
  | cons a t ih =>
      cases t with
      | nil => simp [List.zip]
      | cons b t2 =>
          rw [List.tail_cons, List.zip_cons_cons]
          have hs2 : List.Sorted qLe (b :: t2) := (List.pairwise_cons.mp hs).2
          constructor
          · rintro ⟨q1, q2⟩ hq2
            have hq1mem : q1 ∈ b :: t2 := (List.of_mem_zip hq2).1
            have hqokb : QOK b := hq b (List.mem_cons_of_mem _ (List.mem_cons_self _ _))
            have hqok1 : QOK q1 := hq q1 (List.mem_cons_of_mem _ hq1mem)
            rcases List.mem_cons.mp hq1mem with heq | hm
            · subst heq
              exact le_refl _
            · exact midIdx_mono ((List.pairwise_cons.mp hs2).1 q1 hm) hqokb hqok1
          · have := ih hs2 (fun e he => hq e (List.mem_cons_of_mem _ he))
            rw [List.tail_cons] at this
            exact this

theorem zip_decomp_pre {l : List QuarterlyRecord} (hs : List.Sorted qLe l)
    (hq : ∀ e ∈ l, QOK e) {p : QuarterlyRecord × QuarterlyRecord}
    (hp : p ∈ l.zip l.tail) :
    ∃ pre post, l.zip l.tail = pre ++ p :: post ∧
      ∀ q ∈ pre, midIdx q.2 ≤ midIdx p.1 := by
  obtain ⟨pre, post, heq⟩ := List.append_of_mem hp
  refine ⟨pre, post, heq, ?_⟩
  have hpw := sorted_zip_pairwise hs hq
  rw [heq] at hpw
  intro q hqm
  exact (List.pairwise_append.mp hpw).2.2 q hqm p (List.mem_cons_self _ _)

theorem covering {l : List QuarterlyRecord} (hs : List.Sorted qLe l)
    (hq : ∀ e ∈ l, QOK e) {e1 en : QuarterlyRecord}
    (h1 : l.head? = some e1) (h2 : l.getLast? = some en)
    {t : Int} (ht1 : startIdx e1 ≤ t) (ht2 : t ≤ endIdx en) :
    (∃ e ∈ l, startIdx e ≤ t ∧ t ≤ endIdx e) ∨
    (∃ p ∈ l.zip l.tail, midIdx p.1 + 3 < midIdx p.2 ∧ midIdx p.1 < t ∧ t < midIdx p.2) := by
  induction l generalizing e1 with
  | nil => cases h1
  | cons a tl ih =>
      simp only [List.head?_cons, Option.some.injEq] at h1
      subst h1
      cases tl with
      | nil =>
          simp only [List.getLast?_singleton, Option.some.injEq] at h2
          subst h2
          exact Or.inl ⟨a, List.mem_cons_self _ _, ht1, ht2⟩
      | cons b t2 =>
          rw [List.getLast?_cons_cons] at h2
          by_cases hcase : t ≤ endIdx a
          · exact Or.inl ⟨a, List.mem_cons_self _ _, ht1, hcase⟩
          · push_neg at hcase
            have hs2 : List.Sorted qLe (b :: t2) := (List.pairwise_cons.mp hs).2
            by_cases hcase2 : startIdx b ≤ t
            · have hres := ih hs2 (fun e he => hq e (List.mem_cons_of_mem _ he))
                (by rw [List.head?_cons]) h2 hcase2
              rcases hres with ⟨e, hem, hb1, hb2⟩ | ⟨p, hpm, hpg, hp1, hp2⟩
              · exact Or.inl ⟨e, List.mem_cons_of_mem _ hem, hb1, hb2⟩
              · refine Or.inr ⟨p, ?_, hpg, hp1, hp2⟩
                rw [List.tail_cons, List.zip_cons_cons]
                apply List.mem_cons_of_mem
                rw [List.tail_cons] at hpm
                exact hpm
            · push_neg at hcase2
              refine Or.inr ⟨(a, b), ?_, ?_, ?_, ?_⟩
              · rw [List.tail_cons, List.zip_cons_cons]
                exact List.mem_cons_self _ _
              · show midIdx a + 3 < midIdx b
                unfold endIdx at hcase
                unfold startIdx at hcase2
                omega
              · show midIdx a < t
                unfold endIdx at hcase
                omega
              · show t < midIdx b
                unfold startIdx at hcase2
                omega

theorem foldl_pred_preserved {β : Type} (g : Store → β → Store) (Q : Store → Prop)
    (hg : ∀ st b, Q st → Q (g st b)) (l : List β) (s : Store) (h : Q s) :
    Q (l.foldl g s) := by
  induction l generalizing s with
  | nil => exact h
  | cons hd tl ih => exact ih _ (hg _ _ h)

theorem nodup_interpStep (e1 e2 : QuarterlyRecord) (ns : Int) (s : Store) (step : ℕ)
    (h : (storeKeys s).Nodup) : (storeKeys (interpStep e1 e2 ns s step)).Nodup := by
  simp only [interpStep]
  split
  · split
    · exact h
    · exact nodup_insertKey _ _ h
  · exact h

theorem nodup_broadcastEntry (e : QuarterlyRecord) {s : Store}
    (h : (storeKeys s).Nodup) : (storeKeys (broadcastEntry s e)).Nodup := by
  simp only [broadcastEntry]
  apply foldl_pred_preserved _ (fun st => (storeKeys st).Nodup) ?hg _ _ h
  case hg =>
    intro st b hb
    dsimp only
    split
    · exact nodup_insertKey _ _ hb
    · exact hb

theorem nodup_interpPair (e1 e2 : QuarterlyRecord) {s : Store}
    (h : (storeKeys s).Nodup) : (storeKeys (interpPair s e1 e2)).Nodup := by
  by_cases hg : midIdx e1 + 3 < midIdx e2
  · rw [interpPair_of_gap _ _ _ hg]
    exact foldl_pred_preserved _ (fun st => (storeKeys st).Nodup)
      (fun st b hb => nodup_interpStep _ _ _ _ _ hb) _ _ h
  · rw [interpPair_of_no_gap _ _ _ hg]
    exact h

theorem nodup_finalStore (qs : List QuarterlyRecord) :
    (storeKeys (finalStore qs)).Nodup := by
  unfold finalStore pass2
  apply foldl_pred_preserved _ (fun st => (storeKeys st).Nodup)
    (fun st p hp => nodup_interpPair _ _ hp)
  unfold pass1
  apply foldl_pred_preserved _ (fun st => (storeKeys st).Nodup)
    (fun st b hb => nodup_broadcastEntry _ hb)
  simp [storeKeys]

theorem keyLe_of_pairLe {a b : (Int × Int) × ℚ} (h : pairLe a b) : keyLe a.1 b.1 := by
  rcases h with h | ⟨he, hs⟩
  · exact Or.inl h
  · refine Or.inr ⟨he, ?_⟩
    rcases hs with hs | ⟨hse, _⟩
    · exact le_of_lt hs
    · exact le_of_eq hse

theorem keyLt_of_keyLe_ne {a b : Int × Int} (h : keyLe a b) (hne : a ≠ b) : keyLt a b := by
  obtain ⟨x, y⟩ := a
  obtain ⟨u, v⟩ := b
  simp only [ne_eq, Prod.mk.injEq, not_and] at hne
  unfold keyLe at h
  unfold keyLt
  simp only at h ⊢
  omega

theorem keyLt_ne {a b : Int × Int} (h : keyLt a b) : a ≠ b := by
  obtain ⟨x, y⟩ := a
  obtain ⟨u, v⟩ := b
  unfold keyLt at h
  simp only [ne_eq, Prod.mk.injEq, not_and]
  omega

theorem keyLe_of_keyLt {a b : Int × Int} (h : keyLt a b) : keyLe a b := by
  unfold keyLt at h
  unfold keyLe
  omega

theorem mem_idxList {a : Int} {n : Nat} {t : Int} :
    t ∈ idxList a n ↔ a ≤ t ∧ t < a + n := by
  induction n generalizing a with
  | zero => simp [idxList]
  | succ m ih =>
      simp only [idxList, List.mem_cons, ih]
      omega

theorem pairwise_lt_idxList (a : Int) (n : Nat) :
    List.Pairwise (fun x y : Int => x < y) (idxList a n) := by
  induction n generalizing a with
  | zero => exact List.Pairwise.nil
  | succ m ih =>
      refine List.Pairwise.cons ?_ (ih (a + 1))
      intro t ht
      have := mem_idxList.mp ht
      omega

theorem mem_monthRange {a b : Int} {k : Int × Int} :
    k ∈ monthRange a b ↔ ∃ t : Int, a ≤ t ∧ t ≤ b ∧ k = keyOfIdx t := by
  simp only [monthRange, List.mem_map]
  constructor
  · rintro ⟨t, ht, rfl⟩
    have := mem_idxList.mp ht
    exact ⟨t, by omega, by omega, rfl⟩
  · rintro ⟨t, ht1, ht2, rfl⟩
    exact ⟨t, mem_idxList.mpr ⟨ht1, by omega⟩, rfl⟩

theorem pairwise_keyLt_monthRange (a b : Int) :
    List.Pairwise keyLt (monthRange a b) := by
  unfold monthRange
  exact List.Pairwise.map _ (fun x y hxy => keyOfIdx_lt hxy) (pairwise_lt_idxList _ _)

theorem head?_some_mem {α : Type} {l : List α} {x : α} (h : l.head? = some x) : x ∈ l := by
  cases l with
  | nil => cases h
  | cons a t =>
      simp only [List.head?_cons, Option.some.injEq] at h
      subst h
      exact List.mem_cons_self _ _

theorem sortedQ_sorted (qs : List QuarterlyRecord) : List.Sorted qLe (sortedQ qs) :=
  List.sorted_insertionSort qLe qs

theorem mem_sortedQ {qs : List QuarterlyRecord} {e : QuarterlyRecord} :
    e ∈ sortedQ qs ↔ e ∈ qs :=
  (List.perm_insertionSort qLe qs).mem_iff

theorem pass2_covers_pair (pairs : List (QuarterlyRecord × QuarterlyRecord)) (s : Store)
    {p : QuarterlyRecord × QuarterlyRecord} (hp : p ∈ pairs)
    (hgap : midIdx p.1 + 3 < midIdx p.2) (step : ℕ) (h1 : 1 ≤ step)
    (h2 : (step : Int) < midIdx p.2 - midIdx p.1) :
    (lookupStore (pairs.foldl (fun st q => interpPair st q.1 q.2) s)
      (keyOfIdx (midIdx p.1 + (step : Int)))).isSome := by
  obtain ⟨l1, l2, rfl⟩ := List.append_of_mem hp
  rw [List.foldl_append, List.foldl_cons]
  apply foldl_isSome_preserved _ (fun st q k hk => interpPair_isSome st q.1 q.2 hk)
  exact interpPair_covers _ p.1 p.2 hgap step h1 h2

theorem finalStore_isSome_iff {qs : List QuarterlyRecord}
    (hq : ∀ e ∈ qs, QOK e) {e1 en : QuarterlyRecord}
    (h1 : (sortedQ qs).head? = some e1) (h2 : (sortedQ qs).getLast? = some en)
    (k : Int × Int) :
    (lookupStore (finalStore qs) k).isSome ↔
      ∃ t : Int, startIdx e1 ≤ t ∧ t ≤ endIdx en ∧ k = keyOfIdx t := by
  have hs : List.Sorted qLe (sortedQ qs) := sortedQ_sorted qs
  have hql : ∀ e ∈ sortedQ qs, QOK e := fun e he => hq e (mem_sortedQ.mp he)
  have hq1 : QOK e1 := hql e1 (head?_some_mem h1)
  have hqn : QOK en := hql en (getLast?_some_mem h2)
  constructor
  · intro hk
    unfold finalStore pass2 at hk
    refine pass2_bound_aux
      (fun k2 => ∃ t : Int, startIdx e1 ≤ t ∧ t ≤ endIdx en ∧ k2 = keyOfIdx t)
      ((sortedQ qs).zip (sortedQ qs).tail) ?hp2 _ ?hp1 k hk
    case hp2 =>
      rintro ⟨p1, p2⟩ hp t ht1 ht2
      have hm1 : p1 ∈ sortedQ qs := (List.of_mem_zip hp).1
      have hm2 : p2 ∈ sortedQ qs := List.tail_subset _ (List.of_mem_zip hp).2
      have hle1 := midIdx_mono (sorted_head_le hs h1 p1 hm1) hq1 (hql p1 hm1)
      have hle2 := midIdx_mono (sorted_le_last hs h2 p2 hm2) (hql p2 hm2) hqn
      refine ⟨t, ?_, ?_, rfl⟩
      · unfold startIdx
        simp only at ht1
        omega
      · unfold endIdx
        simp only at ht2
        omega
    case hp1 =>
      intro k2 hk2
      unfold pass1 at hk2
      refine pass1_bound_aux
        (fun k3 => ∃ t : Int, startIdx e1 ≤ t ∧ t ≤ endIdx en ∧ k3 = keyOfIdx t)
        (sortedQ qs) ?hl _ ?hbase k2 hk2
      case hbase =>
        intro k3 hk3
        simp [lookupStore] at hk3
      case hl =>
        intro e he
        have hqe := hql e he
        refine ⟨hqe, ?_⟩
        intro m hm1 hm2
        have hles := midIdx_mono (sorted_head_le hs h1 e he) hq1 hqe
        have hlee := midIdx_mono (sorted_le_last hs h2 e he) hqe hqn
        obtain ⟨hqa, hqb⟩ := hqe
        refine ⟨(e.year - 2006) * 12 + m, ?_, ?_, ?_⟩
        · unfold startIdx at *
          unfold midIdx at *
          omega
        · unfold endIdx at *
          unfold midIdx at *
          omega
        · exact (keyOfIdx_ym (by omega) (by omega)).symm
  · rintro ⟨t, ht1, ht2, rfl⟩
    have hcov := covering hs hql h1 h2 ht1 ht2
    unfold finalStore pass2
    rcases hcov with ⟨e, hem, hb1, hb2⟩ | ⟨p, hpm, hpg, hp1, hp2⟩
    · apply foldl_isSome_preserved _ (fun st q k2 hk2 => interpPair_isSome st q.1 q.2 hk2)
      exact pass1_covers hem (hql e hem) hb1 hb2
    · have hstep : midIdx p.1 + (((t - midIdx p.1).toNat : ℕ) : Int) = t := by omega
      have hres := pass2_covers_pair ((sortedQ qs).zip (sortedQ qs).tail)
        (pass1 (sortedQ qs)) hpm hpg ((t - midIdx p.1).toNat) (by omega) (by omega)
      rw [hstep] at hres
      exact hres

theorem interpolate_map_key (qs : List QuarterlyRecord) (hne : qs ≠ []) :
    (interpolate_quarterly_to_monthly qs).map (fun r => (r.year, r.month))
      = (List.insertionSort pairLe (finalStore qs)).map Prod.fst := by
  simp only [interpolate_quarterly_to_monthly, if_neg hne, List.map_map]
  rfl

theorem interpolate_keys_eq {qs : List QuarterlyRecord} (hne : qs ≠ [])
    (hq : ∀ e ∈ qs, QOK e) {e1 en : QuarterlyRecord}
    (h1 : (sortedQ qs).head? = some e1) (h2 : (sortedQ qs).getLast? = some en) :
    (interpolate_quarterly_to_monthly qs).map (fun r => (r.year, r.month))
      = monthRange (startIdx e1) (endIdx en) := by
  rw [interpolate_map_key qs hne]
  have hperm : (List.insertionSort pairLe (finalStore qs)).Perm (finalStore qs) :=
    List.perm_insertionSort _ _
  have hnd1 : ((List.insertionSort pairLe (finalStore qs)).map Prod.fst).Nodup :=
    ((hperm.map Prod.fst).nodup_iff).mpr (nodup_finalStore qs)
  have hsorted1 : List.Sorted keyLe ((List.insertionSort pairLe (finalStore qs)).map Prod.fst) :=
    List.Pairwise.map _ (fun a b hab => keyLe_of_pairLe hab)
      (List.sorted_insertionSort pairLe _)
  have hnd2 : (monthRange (startIdx e1) (endIdx en)).Nodup :=
    (pairwise_keyLt_monthRange _ _).imp (fun hab => keyLt_ne hab)
  have hsorted2 : List.Sorted keyLe (monthRange (startIdx e1) (endIdx en)) :=
    (pairwise_keyLt_monthRange _ _).imp (fun hab => keyLe_of_keyLt hab)
  have hmem : ∀ k, k ∈ (List.insertionSort pairLe (finalStore qs)).map Prod.fst ↔
      k ∈ monthRange (startIdx e1) (endIdx en) := by
    intro k
    rw [(hperm.map Prod.fst).mem_iff]
    show k ∈ storeKeys (finalStore qs) ↔ _
    rw [mem_storeKeys_iff, mem_monthRange]
    exact finalStore_isSome_iff hq h1 h2 k
  exact List.eq_of_perm_of_sorted
    ((List.perm_ext_iff_of_nodup hnd1 hnd2).mpr hmem) hsorted1 hsorted2

theorem interpolate_mem_of_lookup {qs : List QuarterlyRecord} {k : Int × Int} {v : ℚ}
    (hne : qs ≠ []) (h : lookupStore (finalStore qs) k = some v) :
    (⟨k.1, k.2, round2 v⟩ : MonthlyRecord) ∈ interpolate_quarterly_to_monthly qs := by
  simp only [interpolate_quarterly_to_monthly, if_neg hne]
  exact List.mem_map_of_mem _
    (((List.perm_insertionSort pairLe _).mem_iff).mpr (lookup_some_mem h))

theorem pass1_lookup_ne_nil {qs : List QuarterlyRecord} {k : Int × Int} {v : ℚ}
    (h : lookupStore (pass1 (sortedQ qs)) k = some v) : qs ≠ [] := by
  intro he
  subst he
  have hz : pass1 (sortedQ ([] : List QuarterlyRecord)) = [] := rfl
  rw [hz] at h
  cases h

theorem finalStore_preserves_pass1 {qs : List QuarterlyRecord} {k : Int × Int} {v : ℚ}
    (h : lookupStore (pass1 (sortedQ qs)) k = some v) :
    lookupStore (finalStore qs) k = some v := by
  unfold finalStore pass2
  exact foldl_lookup_preserved _
    (fun st p k2 v2 h2 => interpPair_preserves st p.1 p.2 h2) _ _ _ _ h

theorem foldl_interpPair_lookup_high (pre : List (QuarterlyRecord × QuarterlyRecord))
    (s : Store) {T : Int} (hpre : ∀ q ∈ pre, midIdx q.2 < T) :
    lookupStore (pre.foldl (fun st q => interpPair st q.1 q.2) s) (keyOfIdx T)
      = lookupStore s (keyOfIdx T) := by
  induction pre generalizing s with
  | nil => rfl
  | cons hd tl ih =>
      rw [List.foldl_cons, ih _ (fun q hq => hpre q (List.mem_cons_of_mem _ hq))]
      apply interpPair_lookup_outside
      intro t ht1 ht2 hkeq
      have hinj := keyOfIdx_inj hkeq
      have hh := hpre hd (List.mem_cons_self _ _)
      omega

theorem convert_cons_some {gold : Store} {r : MonthlyRecord} {rest : List MonthlyRecord}
    {out : List EnrichedMonthlyRecord}
    (h : convert_to_gold_equivalent gold (r :: rest) = some out) :
    ∃ tail, convert_to_gold_equivalent gold rest = some tail ∧
      ((∃ gp : ℚ, lookupStore gold (r.year, r.month) = some gp ∧ gp ≠ 0 ∧
          out = ⟨r.year, r.month, r.priceM2_pln, some (round2 (r.priceM2_pln / gp))⟩ :: tail) ∨
       (lookupStore gold (r.year, r.month) = none ∧
          out = ⟨r.year, r.month, r.priceM2_pln, none⟩ :: tail)) := by
  simp only [convert_to_gold_equivalent] at h
  cases hl : lookupStore gold (r.year, r.month) with
  | some gp =>
      rw [hl] at h
      dsimp only at h
      by_cases hz : gp = 0
      · rw [if_pos hz] at h
        cases h
      · rw [if_neg hz] at h
        cases hc : convert_to_gold_equivalent gold rest with
        | some tail =>
            rw [hc] at h
            dsimp only at h
            refine ⟨tail, rfl, Or.inl ⟨gp, rfl, hz, ?_⟩⟩
            exact ((Option.some.injEq _ _).mp h).symm
        | none =>
            rw [hc] at h
            dsimp only at h
            cases h
  | none =>
      rw [hl] at h
      dsimp only at h
      cases hc : convert_to_gold_equivalent gold rest with
      | some tail =>
          rw [hc] at h
          dsimp only at h
          refine ⟨tail, rfl, Or.inr ⟨rfl, ?_⟩⟩
          exact ((Option.some.injEq _ _).mp h).symm
      | none =>
          rw [hc] at h
          dsimp only at h
          cases h

theorem findIdx?_spec {α : Type} (p : α → Bool) :
    ∀ (l : List α) (i0 i : Nat), List.findIdx? p l i0 = some i →
      i0 ≤ i ∧ (i - i0) < l.length ∧
      (∃ x, l.get? (i - i0) = some x ∧ p x = true) ∧
      ∀ j, j < i - i0 → ∀ y, l.get? j = some y → p y = false := by
  intro l
  induction l with
  | nil => intro i0 i h; cases h
  | cons a t ih =>
      intro i0 i h
      simp only [List.findIdx?] at h
      by_cases hp : p a
      · rw [if_pos hp] at h
        have hii : i0 = i := by cases h; rfl
        subst hii
        refine ⟨le_refl _, by simp, ⟨a, by simp, hp⟩, ?_⟩
        intro j hj y hy
        exact absurd hj (by omega)
      · rw [if_neg hp] at h
        obtain ⟨h1, h2, ⟨x, hx, hpx⟩, hmin⟩ := ih (i0 + 1) i h
        refine ⟨by omega, by simp only [List.length_cons]; omega, ⟨x, ?_, hpx⟩, ?_⟩
        · rw [show i - i0 = (i - (i0 + 1)) + 1 from by omega, List.get?_cons_succ]
          exact hx
        · intro j hj y hy
          cases j with
          | zero =>
              rw [List.get?_cons_zero] at hy
              cases hy
              exact Bool.eq_false_iff.mpr hp
          | succ j2 =>
              rw [List.get?_cons_succ] at hy
              exact hmin j2 (by omega) y hy

theorem findHeaderAux_spec :
    ∀ (rows : List (List Cell)) (base : Nat) (r c : Nat),
      findHeaderAux base rows = some (r, c) →
      base ≤ r ∧ (r - base) < rows.length ∧
      ∃ row, rows.get? (r - base) = some row ∧
        row.any cellMatchesWarsaw = true ∧
        (∀ j, j < r - base → ∀ rowj, rows.get? j = some rowj →
          rowj.any cellMatchesWarsaw = false) ∧
        row.findIdx? cellMatchesWarsaw = some (c - 1) ∧ 1 ≤ c := by
  intro rows
  induction rows with
  | nil => intro base r c h; cases h
  | cons row rest ih =>
      intro base r c h
      simp only [findHeaderAux] at h
      by_cases ha : row.any cellMatchesWarsaw
      · rw [if_pos ha] at h
        cases hf : row.findIdx? cellMatchesWarsaw with
        | none =>
            rw [hf] at h
            cases h
        | some c2 =>
            rw [hf] at h
            simp only [Option.map] at h
            have h3 := (Option.some.injEq _ _).mp h
            obtain ⟨rfl, rfl⟩ := (Prod.mk.injEq _ _ _ _).mp h3
            refine ⟨le_refl _, by simp, row, by simp, ha, ?_, ?_, by omega⟩
            · intro j hj
              exact absurd hj (by omega)
            · rw [hf]
              simp only [Nat.add_sub_cancel]
      · rw [if_neg ha] at h
        obtain ⟨h1, h2, row2, hget, hany, hmin, hfi, hc⟩ := ih (base + 1) r c h
        refine ⟨by omega, by simp only [List.length_cons]; omega, row2, ?_, hany, ?_, hfi, hc⟩
        · rw [show r - base = (r - (base + 1)) + 1 from by omega, List.get?_cons_succ]
          exact hget
        · intro j hj rowj hget2
          cases j with
          | zero =>
              rw [List.get?_cons_zero] at hget2
              cases hget2
              exact Bool.eq_false_iff.mpr ha
          | succ j2 =>
              rw [List.get?_cons_succ] at hget2
              exact hmin j2 (by omega) rowj hget2

theorem extractRows_eq_filterMap (warsawCol : Nat) (rows : List (List Cell))
    (hrect : ∀ row ∈ rows, warsawCol ≤ row.length ∧ 1 ≤ row.length) :
    extractRows warsawCol rows = Except.ok (rows.filterMap (keepRow warsawCol)) := by
  induction rows with
  | nil => rfl
  | cons row rest ih =>
      obtain ⟨hw, h1⟩ := hrect row (List.mem_cons_self _ _)
      have ihr := ih (fun row2 hr2 => hrect row2 (List.mem_cons_of_mem _ hr2))
      obtain ⟨c0, hc0⟩ : ∃ x, row.get? 0 = some x := ⟨_, List.get?_eq_get (by omega)⟩
      obtain ⟨cw, hcw⟩ : ∃ x, row.get? (warsawCol - 1) = some x :=
        ⟨_, List.get?_eq_get (by omega)⟩
      simp only [extractRows, keepRow, hc0, hcw, List.filterMap_cons]
      cases hb0 : c0.truthy with
      | false => simp [ihr]
      | true =>
          cases hbw : cw.truthy with
          | false => simp [ihr]
          | true =>
              simp only [Bool.not_true, Bool.false_or, Bool.and_self, if_false, if_true,
                Bool.false_eq_true, Bool.true_and]
              cases hp : parse_period (strip (cellStr c0)) with
              | mk py pq =>
                  cases py with
                  | some y =>
                      cases pq with
                      | some q =>
                          cases hf : cellFloat cw with
                          | some p => simp [ihr]
                          | none => simp [ihr]
                      | none => simp [ihr]
                  | none => simp [ihr]

/-- C5: the Period Parser maps "Q1 2023" to (2023,1), "I 2006" to (2006,1),
"1 kw. 2023" to (2023,1) and "IV kw 2021" to (2021,4); a string with no
4-digit year such as "Q1" yields a parse failure (year slot empty, which
the caller treats as failure). -/
theorem parse_period_examples :
    parse_period "Q1 2023".toList = (some 2023, some 1) ∧
    parse_period "I 2006".toList = (some 2006, some 1) ∧
    parse_period "1 kw. 2023".toList = (some 2023, some 1) ∧
    parse_period "IV kw 2021".toList = (some 2021, some 4) ∧
    (parse_period "Q1".toList).1 = none := by decide

/-- C6: for every input string, the quarter is resolved by trying, in this
fixed order, the Roman-numeral rule, the Q-digit rule, and the localized
kw rule, stopping at the first rule that resolves a quarter; when no rule
matches, the quarter slot is null regardless of the year, which is
extracted independently of the quarter rules. -/
theorem parse_period_rule_order (s : List Char) :
    (parse_period s).1 = yearSearch none s ∧
    (parse_period s).2 =
      (match romanQuarterRule s with
       | some q => some q
       | none =>
           (match qQuarterRule (s.map Char.toLower) with
            | some q => some q
            | none => kwQuarterRule (s.map Char.toLower))) := by
  refine ⟨rfl, ?_⟩
  simp only [parse_period, romanQuarterRule, qQuarterRule, kwQuarterRule]
  cases hro : romanSearch none s with
  | some g =>
      dsimp only
      cases hri : romanToInt (List.map Char.toLower g) with
      | some q => rfl
      | none =>
          dsimp only
          by_cases hq : (List.map Char.toLower s).contains 'q'
          · rw [if_pos hq]
            cases hqs : qSearch (List.map Char.toLower s) with
            | some q => rfl
            | none => rfl
          · rw [if_neg hq]
  | none =>
      dsimp only
      by_cases hq : (List.map Char.toLower s).contains 'q'
      · rw [if_pos hq]
        cases hqs : qSearch (List.map Char.toLower s) with
        | some q => rfl
        | none => rfl
      · rw [if_neg hq]

/-- C4 counterexample: the claim that the final output price of a
broadcast key equals the broadcast value verbatim fails when the quarterly
price has more than 2 decimal places: for the single record with price
100.005, the broadcast store value is 100.005 but the emitted price is
the rounded 100. -/
theorem broadcast_verbatim_output_counterexample :
    lookupStore (pass1 (sortedQ [⟨2020, 1, 20001/200⟩])) (2020, 1) = some (20001/200) ∧
    interpolate_quarterly_to_monthly [⟨2020, 1, 20001/200⟩]
      = [⟨2020, 1, 100⟩, ⟨2020, 2, 100⟩, ⟨2020, 3, 100⟩] ∧
    (20001/200 : ℚ) ≠ 100 := by decide

/-- C4 amended: Pass 2 writes only where Pass 1 left no value, so every
key bound by broadcast keeps its broadcast value in the final store, and
the emitted record for that key carries the broadcast value rounded to 2
decimal places. -/
theorem broadcast_values_never_overwritten
    (qs : List QuarterlyRecord) (k : Int × Int) (v : ℚ)
    (h : lookupStore (pass1 (sortedQ qs)) k = some v) :
    lookupStore (finalStore qs) k = some v ∧
    (⟨k.1, k.2, round2 v⟩ : MonthlyRecord) ∈ interpolate_quarterly_to_monthly qs := by
  have hne : qs ≠ [] := pass1_lookup_ne_nil h
  have hf := finalStore_preserves_pass1 h
  exact ⟨hf, interpolate_mem_of_lookup hne hf⟩

theorem broadcast_values_never_overwritten_witness :
    lookupStore (finalStore [⟨2020, 1, 100⟩, ⟨2020, 4, 160⟩]) (2020, 1) = some 100 ∧
    (⟨2020, 1, round2 100⟩ : MonthlyRecord)
      ∈ interpolate_quarterly_to_monthly [⟨2020, 1, 100⟩, ⟨2020, 4, 160⟩] :=
  broadcast_values_never_overwritten [⟨2020, 1, 100⟩, ⟨2020, 4, 160⟩] (2020, 1) 100
    (by decide)

/-- C10: every priceM2_pln in the interpolator's output equals the stored
monthly value rounded to 2 decimal places (broadcast values included, not
only interpolated ones), and in particular every emitted price times 100
is an integer, so a source price with more than 2 decimals never appears
verbatim. -/
theorem emission_rounds_every_price (qs : List QuarterlyRecord) (r : MonthlyRecord)
    (hr : r ∈ interpolate_quarterly_to_monthly qs) :
    (∃ v : ℚ, lookupStore (finalStore qs) (r.year, r.month) = some v ∧
      r.priceM2_pln = round2 v) ∧
    ∃ n : ℤ, r.priceM2_pln * 100 = (n : ℚ) := by
  by_cases hne : qs = []
  · subst hne
    simp [interpolate_quarterly_to_monthly] at hr
  · simp only [interpolate_quarterly_to_monthly, if_neg hne] at hr
    obtain ⟨kv, hkv, rfl⟩ := List.mem_map.mp hr
    have hmem : kv ∈ finalStore qs :=
      ((List.perm_insertionSort pairLe _).mem_iff).mp hkv
    have hlook : lookupStore (finalStore qs) (kv.1.1, kv.1.2) = some kv.2 :=
      lookup_of_mem_nodup (nodup_finalStore qs) hmem
    exact ⟨⟨kv.2, hlook, rfl⟩, round2_mul_100_int _⟩

theorem emission_rounds_every_price_witness :
    (∃ v : ℚ, lookupStore (finalStore [⟨2020, 1, 20001/200⟩]) ((2020 : Int), (1 : Int))
        = some v ∧ (100 : ℚ) = round2 v) ∧
    ∃ n : ℤ, (100 : ℚ) * 100 = (n : ℚ) :=
  emission_rounds_every_price [⟨2020, 1, 20001/200⟩] ⟨2020, 1, 100⟩ (by decide)

/-- C3 counterexample: with anchors `{2020,Q1,100}` and `{2020,Q4,160}`,
month index 171 (March 2020) lies strictly between the representative
months 170 and 179, and the claimed interpolated price for step 1 rounds
to 106.67, yet the output price for (2020, 3) is the broadcast 100: not
every month strictly between the representative months receives the
interpolated price. -/
theorem bridge_interpolation_every_month_counterexample :
    (interpolate_quarterly_to_monthly [⟨2020, 1, 100⟩, ⟨2020, 4, 160⟩]).get? 2
      = some ⟨2020, 3, 100⟩ ∧
    midIdx (⟨2020, 1, 100⟩ : QuarterlyRecord) < 171 ∧
    (171 : Int) < midIdx (⟨2020, 4, 160⟩ : QuarterlyRecord) ∧
    keyOfIdx 171 = (2020, 3) ∧
    round2 (interpPrice 100 160 1 (midIdx (⟨2020, 4, 160⟩ : QuarterlyRecord) -
      midIdx (⟨2020, 1, 100⟩ : QuarterlyRecord))) = 10667/100 ∧
    (10667/100 : ℚ) ≠ 100 := by decide

/-- C3 amended: for each adjacent pair of sorted quarterly records whose
mid-quarter month indices differ by more than 3, every month strictly
between the two representative months that broadcast left unfilled
receives `price1 + (price2 - price1) * (step / total_steps)` rounded to 2
decimal places; for the anchors `{2020,Q1,100}` and `{2020,Q4,160}` the
output is the rounding of an equal-step progression from 100 toward 160
on the unfilled months and is monotonically nondecreasing throughout. -/
theorem bridge_interpolation_formula_on_unfilled_months :
    (∀ qs : List QuarterlyRecord,
      (∀ e ∈ qs, 1 ≤ e.quarter ∧ e.quarter ≤ 4) →
      ∀ p ∈ (sortedQ qs).zip (sortedQ qs).tail,
      midIdx p.1 + 3 < midIdx p.2 →
      ∀ step : ℕ, 1 ≤ step → (step : Int) < midIdx p.2 - midIdx p.1 →
      lookupStore (pass1 (sortedQ qs)) (keyOfIdx (midIdx p.1 + (step : Int))) = none →
      lookupStore (finalStore qs) (keyOfIdx (midIdx p.1 + (step : Int)))
        = some (round2 (interpPrice p.1.priceM2 p.2.priceM2 step
            (midIdx p.2 - midIdx p.1))) ∧
      (⟨(keyOfIdx (midIdx p.1 + (step : Int))).1,
        (keyOfIdx (midIdx p.1 + (step : Int))).2,
        round2 (interpPrice p.1.priceM2 p.2.priceM2 step
          (midIdx p.2 - midIdx p.1))⟩ : MonthlyRecord)
        ∈ interpolate_quarterly_to_monthly qs) ∧
    interpolate_quarterly_to_monthly [⟨2020, 1, 100⟩, ⟨2020, 4, 160⟩] =
      [⟨2020, 1, 100⟩, ⟨2020, 2, 100⟩, ⟨2020, 3, 100⟩,
       ⟨2020, 4, 11333/100⟩, ⟨2020, 5, 120⟩, ⟨2020, 6, 12667/100⟩,
       ⟨2020, 7, 13333/100⟩, ⟨2020, 8, 140⟩, ⟨2020, 9, 14667/100⟩,
       ⟨2020, 10, 160⟩, ⟨2020, 11, 160⟩, ⟨2020, 12, 160⟩] ∧
    List.Pairwise (fun a b : MonthlyRecord => a.priceM2_pln ≤ b.priceM2_pln)
      (interpolate_quarterly_to_monthly [⟨2020, 1, 100⟩, ⟨2020, 4, 160⟩]) := by
  refine ⟨?_, by decide, by decide⟩
  intro qs hq p hp hgap step hs1 hs2 hnone
  have hsorted := sortedQ_sorted qs
  have hql : ∀ e ∈ sortedQ qs, QOK e := fun e he => hq e (mem_sortedQ.mp he)
  have hne : qs ≠ [] := by
    intro he
    subst he
    exact List.not_mem_nil p hp
  obtain ⟨pre, post, heq, hpre⟩ := zip_decomp_pre hsorted hql hp
  have hlAtPre : lookupStore
      (pre.foldl (fun st q => interpPair st q.1 q.2) (pass1 (sortedQ qs)))
      (keyOfIdx (midIdx p.1 + (step : Int))) = none := by
    rw [foldl_interpPair_lookup_high pre _ ?hhigh]
    · exact hnone
    case hhigh =>
      intro q hqm
      have hle := hpre q hqm
      omega
  have hkey : lookupStore (finalStore qs) (keyOfIdx (midIdx p.1 + (step : Int)))
      = some (round2 (interpPrice p.1.priceM2 p.2.priceM2 step
          (midIdx p.2 - midIdx p.1))) := by
    unfold finalStore pass2
    rw [heq, List.foldl_append, List.foldl_cons]
    apply foldl_lookup_preserved _ (fun st q k2 v2 h2 => interpPair_preserves st q.1 q.2 h2)
    exact interpPair_writes _ p.1 p.2 hgap step hs1 hs2 hlAtPre
  refine ⟨hkey, ?_⟩
  have hmem := interpolate_mem_of_lookup hne hkey
  rwa [round2_round2] at hmem

theorem bridge_interpolation_formula_on_unfilled_months_witness :
    (⟨2020, 4, 11333/100⟩ : MonthlyRecord)
      ∈ interpolate_quarterly_to_monthly [⟨2020, 1, 100⟩, ⟨2020, 4, 160⟩] := by
  have h := (bridge_interpolation_formula_on_unfilled_months).1
    [⟨2020, 1, 100⟩, ⟨2020, 4, 160⟩] (by decide)
    (⟨2020, 1, 100⟩, ⟨2020, 4, 160⟩) (by decide) (by decide)
    2 (by decide) (by decide) (by decide)
  have heq : (⟨2020, 4, 11333/100⟩ : MonthlyRecord)
      = ⟨(keyOfIdx (midIdx (⟨2020, 1, 100⟩ : QuarterlyRecord) + ((2 : ℕ) : Int))).1,
         (keyOfIdx (midIdx (⟨2020, 1, 100⟩ : QuarterlyRecord) + ((2 : ℕ) : Int))).2,
         round2 (interpPrice (⟨2020, 1, 100⟩ : QuarterlyRecord).priceM2
           (⟨2020, 4, 160⟩ : QuarterlyRecord).priceM2 2
           (midIdx (⟨2020, 4, 160⟩ : QuarterlyRecord)
             - midIdx (⟨2020, 1, 100⟩ : QuarterlyRecord)))⟩ := by decide
  rw [heq]
  exact h.2

/-- C2: for every non-empty input of QuarterlyRecords with quarters in
[1,4], the interpolator's output keys are strictly increasing in (year,
month) (sorted ascending with exactly one record per key) and are exactly
the contiguous month range from the first month of the chronologically
first quarter to the last month of the chronologically last quarter. -/
theorem interpolator_keys_sorted_unique_contiguous
    (qs : List QuarterlyRecord) (e1 en : QuarterlyRecord)
    (hne : qs ≠ []) (hq : ∀ e ∈ qs, 1 ≤ e.quarter ∧ e.quarter ≤ 4)
    (h1 : (sortedQ qs).head? = some e1) (h2 : (sortedQ qs).getLast? = some en) :
    List.Pairwise keyLt
      ((interpolate_quarterly_to_monthly qs).map (fun r => (r.year, r.month))) ∧
    (interpolate_quarterly_to_monthly qs).map (fun r => (r.year, r.month))
      = monthRange (startIdx e1) (endIdx en) := by
  have heq := interpolate_keys_eq hne hq h1 h2
  constructor
  · rw [heq]
    exact pairwise_keyLt_monthRange _ _
  · exact heq

theorem interpolator_keys_sorted_unique_contiguous_witness :
    List.Pairwise keyLt
      ((interpolate_quarterly_to_monthly [⟨2020, 4, 250⟩, ⟨2020, 1, 100⟩]).map
        (fun r => (r.year, r.month))) ∧
    (interpolate_quarterly_to_monthly [⟨2020, 4, 250⟩, ⟨2020, 1, 100⟩]).map
        (fun r => (r.year, r.month))
      = monthRange (startIdx ⟨2020, 1, 100⟩) (endIdx ⟨2020, 4, 250⟩) :=
  interpolator_keys_sorted_unique_contiguous [⟨2020, 4, 250⟩, ⟨2020, 1, 100⟩]
    ⟨2020, 1, 100⟩ ⟨2020, 4, 250⟩ (by decide) (by decide) (by decide) (by decide)

/-- C9: the gold converter is a per-record enrichment: whenever it
returns a result, the output has the same length as the input and the
same (year, month, priceM2_pln) triples in the same order, so no record
is added, removed or reordered and the local price is unchanged,
regardless of missing gold-price entries. -/
theorem gold_conversion_preserves_frame
    (gold : Store) (ms : List MonthlyRecord) (out : List EnrichedMonthlyRecord)
    (h : convert_to_gold_equivalent gold ms = some out) :
    out.length = ms.length ∧
    out.map (fun e => (e.year, e.month, e.priceM2_pln))
      = ms.map (fun r => (r.year, r.month, r.priceM2_pln)) := by
  induction ms generalizing out with
  | nil =>
      simp only [convert_to_gold_equivalent] at h
      cases h
      exact ⟨rfl, rfl⟩
  | cons r rest ih =>
      obtain ⟨tail, htail, hcase⟩ := convert_cons_some h
      obtain ⟨hlen, hmap⟩ := ih tail htail
      rcases hcase with ⟨gp, hgp, hgpnz, rfl⟩ | ⟨hnone2, rfl⟩ <;>
        exact ⟨by simp only [List.length_cons, hlen],
          by simp only [List.map_cons, hmap]⟩

theorem gold_conversion_preserves_frame_witness :
    ([⟨2021, 1, 9500, some 38⟩, ⟨2021, 2, 9500, none⟩] : List EnrichedMonthlyRecord).length
      = ([⟨2021, 1, 9500⟩, ⟨2021, 2, 9500⟩] : List MonthlyRecord).length ∧
    ([⟨2021, 1, 9500, some 38⟩, ⟨2021, 2, 9500, none⟩] : List EnrichedMonthlyRecord).map
        (fun e => (e.year, e.month, e.priceM2_pln))
      = ([⟨2021, 1, 9500⟩, ⟨2021, 2, 9500⟩] : List MonthlyRecord).map
        (fun r => (r.year, r.month, r.priceM2_pln)) :=
  gold_conversion_preserves_frame [((2021, 1), 250)]
    [⟨2021, 1, 9500⟩, ⟨2021, 2, 9500⟩]
    [⟨2021, 1, 9500, some 38⟩, ⟨2021, 2, 9500, none⟩] (by decide)

/-- C1 counterexample: the code does not test positivity of the gold
price. For a table binding (2020, 1) to -2 (present and non-positive) and
a single monthly record with price 100, the converter emits the quotient
-50 instead of the null marker the claim requires, and the run is not
aborted. -/
theorem gold_conversion_nonpositive_counterexample :
    lookupStore [((2020, 1), -2)] (2020, 1) = some (-2) ∧
    ((-2 : ℚ) < 0) ∧
    convert_to_gold_equivalent [((2020, 1), -2)] [⟨2020, 1, 100⟩]
      = some [⟨2020, 1, 100, some (-50)⟩] := by decide

/-- C1 amended: price_gold is the 2-decimal rounding of
priceM2_pln / gold_price exactly when the (year, month) key is present in
the gold table, and the null marker exactly when the key is absent; the
code never tests the sign, and a gold price of exactly zero is a fatal
ZeroDivisionError that aborts the whole conversion. -/
theorem gold_conversion_marker_iff_key_absent :
    (∀ (gold : Store) (ms : List MonthlyRecord) (out : List EnrichedMonthlyRecord)
        (i : ℕ) (r : MonthlyRecord),
      convert_to_gold_equivalent gold ms = some out → ms.get? i = some r →
      ∃ e, out.get? i = some e ∧ e.year = r.year ∧ e.month = r.month ∧
        e.priceM2_pln = r.priceM2_pln ∧
        (e.priceM2_gold = none ↔ lookupStore gold (r.year, r.month) = none) ∧
        ∀ gp : ℚ, lookupStore gold (r.year, r.month) = some gp →
          e.priceM2_gold = some (round2 (r.priceM2_pln / gp))) ∧
    (∀ (gold : Store) (ms : List MonthlyRecord) (r : MonthlyRecord),
      r ∈ ms → lookupStore gold (r.year, r.month) = some 0 →
      convert_to_gold_equivalent gold ms = none) := by
  constructor
  · intro gold ms
    induction ms with
    | nil =>
        intro out i r h hr
        cases hr
    | cons hd rest ih =>
        intro out i r h hr
        obtain ⟨tail, htail, hcase⟩ := convert_cons_some h
        cases i with
        | zero =>
            rw [List.get?_cons_zero] at hr
            cases hr
            rcases hcase with ⟨gp, hgp, hgpnz, rfl⟩ | ⟨hnone2, rfl⟩
            · refine ⟨_, List.get?_cons_zero, rfl, rfl, rfl, ?_, ?_⟩
              · constructor
                · intro habs
                  cases habs
                · intro habs
                  rw [habs] at hgp
                  cases hgp
              · intro gp2 hgp2
                rw [hgp] at hgp2
                cases hgp2
                rfl
            · refine ⟨_, List.get?_cons_zero, rfl, rfl, rfl, ?_, ?_⟩
              · exact ⟨fun _ => hnone2, fun _ => rfl⟩
              · intro gp2 hgp2
                rw [hnone2] at hgp2
                cases hgp2
        | succ i2 =>
            rw [List.get?_cons_succ] at hr
            obtain ⟨e, hee, hy, hm, hpln, hiff, hsome⟩ := ih tail i2 r htail hr
            rcases hcase with ⟨gp, hgp, hgpnz, rfl⟩ | ⟨hnone2, rfl⟩ <;>
              exact ⟨e, by rw [List.get?_cons_succ]; exact hee, hy, hm, hpln, hiff, hsome⟩
  · intro gold ms
    induction ms with
    | nil =>
        intro r hr hl
        cases hr
    | cons hd rest ih =>
        intro r hr hl
        rcases List.mem_cons.mp hr with rfl | hm
        · simp only [convert_to_gold_equivalent]
          rw [hl]
          dsimp only
          rw [if_pos rfl]
        · have hrec := ih r hm hl
          simp only [convert_to_gold_equivalent]
          cases hl2 : lookupStore gold (hd.year, hd.month) with
          | some gp2 =>
              dsimp only
              by_cases hz : gp2 = 0
              · rw [if_pos hz]
              · rw [if_neg hz, hrec]
          | none =>
              dsimp only
              rw [hrec]

theorem gold_conversion_marker_iff_key_absent_witness :
    ∃ e, ([⟨2021, 1, 9500, some 38⟩, ⟨2021, 2, 9500, none⟩] :
          List EnrichedMonthlyRecord).get? 0 = some e ∧
      e.year = (2021 : Int) ∧ e.month = (1 : Int) ∧ e.priceM2_pln = (9500 : ℚ) ∧
      (e.priceM2_gold = none ↔
        lookupStore [((2021, 1), 250)] ((2021 : Int), (1 : Int)) = none) ∧
      ∀ gp : ℚ, lookupStore [((2021, 1), 250)] ((2021 : Int), (1 : Int)) = some gp →
        e.priceM2_gold = some (round2 ((9500 : ℚ) / gp)) :=
  (gold_conversion_marker_iff_key_absent).1 [((2021, 1), 250)]
    [⟨2021, 1, 9500⟩, ⟨2021, 2, 9500⟩]
    [⟨2021, 1, 9500, some 38⟩, ⟨2021, 2, 9500, none⟩] 0 ⟨2021, 1, 9500⟩
    (by decide) (by decide)

/-- C7: if no cell whose lowered text contains the target-city substring
occurs in the first 20 rows, the run exits with code 1 and writes no
output; if the gold-price file is missing or malformed, the run exits
with code 1 and writes no output; otherwise the first such row (1-based)
within the 20-row window is the header row and the first matching cell in
it gives the target column (its index plus one). -/
theorem header_scan_and_fatal_errors :
    (∀ (grid : List (List Cell)) (goldFile : Option Store),
      findHeader grid = none → mainPipeline grid goldFile = (1, none)) ∧
    (∀ grid : List (List Cell), mainPipeline grid none = (1, none)) ∧
    (∀ (grid : List (List Cell)) (r c : Nat), findHeader grid = some (r, c) →
      1 ≤ r ∧ r ≤ 20 ∧ r ≤ grid.length ∧
      ∃ row, grid.get? (r - 1) = some row ∧
        row.any cellMatchesWarsaw = true ∧
        (∀ j, j < r - 1 → ∀ rowj, grid.get? j = some rowj →
          rowj.any cellMatchesWarsaw = false) ∧
        ∃ cell, row.get? (c - 1) = some cell ∧ cellMatchesWarsaw cell = true ∧
          ∀ j, j < c - 1 → ∀ cellj, row.get? j = some cellj →
            cellMatchesWarsaw cellj = false) := by
  refine ⟨?_, ?_, ?_⟩
  · intro grid goldFile hnone
    have hex : extract_warsaw_quarterly_prices grid
        = Except.error "Warsaw column not found" := by
      unfold extract_warsaw_quarterly_prices
      rw [hnone]
    unfold mainPipeline
    rw [hex]
  · intro grid
    unfold mainPipeline
    cases hex : extract_warsaw_quarterly_prices grid with
    | error e => rfl
    | ok qs =>
        dsimp only
        by_cases hqs : qs = []
        · rw [if_pos hqs]
        · rw [if_neg hqs]
          by_cases hms : interpolate_quarterly_to_monthly qs = []
          · rw [if_pos hms]
          · rw [if_neg hms]
  · intro grid r c hfind
    unfold findHeader at hfind
    obtain ⟨hbase, hlen, row, hget, hany, hmin, hfi, hc⟩ :=
      findHeaderAux_spec (grid.take 20) 1 r c hfind
    rw [List.length_take] at hlen
    refine ⟨hbase, ?_, ?_, row, ?_, hany, ?_, ?_⟩
    · omega
    · omega
    · rw [← List.get?_take (show r - 1 < 20 from by omega)]
      exact hget
    · intro j hj rowj hgetj
      apply hmin j hj rowj
      rw [List.get?_take (show j < 20 from by omega)]
      exact hgetj
    · obtain ⟨h0le, hclen, ⟨cell, hcell, hpcell⟩, hcmin⟩ :=
        findIdx?_spec cellMatchesWarsaw row 0 (c - 1) hfi
      refine ⟨cell, ?_, hpcell, ?_⟩
      · rw [show c - 1 - 0 = c - 1 from by omega] at hcell
        exact hcell
      · intro j hj cellj hgetj
        exact hcmin j (by omega) cellj hgetj

theorem header_scan_and_fatal_errors_witness :
    mainPipeline [[Cell.str ['x']]] (some []) = (1, none) ∧
    mainPipeline [[Cell.str ['x']]] none = (1, none) ∧
    (1 ≤ 1 ∧ 1 ≤ 20 ∧
      1 ≤ ([[Cell.str ['x'], Cell.str "Warszawa".toList]] : List (List Cell)).length ∧
      ∃ row, ([[Cell.str ['x'], Cell.str "Warszawa".toList]] :
            List (List Cell)).get? (1 - 1) = some row ∧
        row.any cellMatchesWarsaw = true ∧
        (∀ j, j < 1 - 1 → ∀ rowj, ([[Cell.str ['x'], Cell.str "Warszawa".toList]] :
            List (List Cell)).get? j = some rowj →
          rowj.any cellMatchesWarsaw = false) ∧
        ∃ cell, row.get? (2 - 1) = some cell ∧ cellMatchesWarsaw cell = true ∧
          ∀ j, j < 2 - 1 → ∀ cellj, row.get? j = some cellj →
            cellMatchesWarsaw cellj = false) :=
  ⟨(header_scan_and_fatal_errors).1 [[Cell.str ['x']]] (some []) (by decide),
   (header_scan_and_fatal_errors).2.1 [[Cell.str ['x']]],
   (header_scan_and_fatal_errors).2.2 [[Cell.str ['x'], Cell.str "Warszawa".toList]]
     1 2 (by decide)⟩

/-- C8 counterexample: the code skips a row whose price cell is the
number 0 (Python falsiness), although the cell is not empty, the period
parses and the price parses as a number, so the skip conditions are not
exactly the claimed ones. -/
theorem extractor_zero_price_cell_counterexample :
    extract_warsaw_quarterly_prices
      [[Cell.str "Okres".toList, Cell.str "Warszawa".toList],
       [Cell.str "Q1 2023".toList, Cell.num 0]] = Except.ok [] ∧
    Cell.num 0 ≠ Cell.empty ∧
    parse_period (strip (cellStr (Cell.str "Q1 2023".toList))) = (some 2023, some 1) ∧
    cellFloat (Cell.num 0) = some 0 := by
  refine ⟨rfl, by decide, by decide, rfl⟩

/-- C8 amended: on a rectangular sheet, each data row after the header is
skipped exactly when the period cell or the target-column cell is falsy
(empty, empty string or numeric zero), the Period Parser fails on the
stripped period text, or the price cell does not parse as a number; each
surviving row yields exactly one QuarterlyRecord, emitted in sheet row
order (the extraction is the row-order filterMap of the per-row filter). -/
theorem extractor_skip_conditions
    (grid : List (List Cell)) (hr wc : Nat)
    (hfind : findHeader grid = some (hr, wc))
    (hrect : ∀ row ∈ grid.drop hr, wc ≤ row.length ∧ 1 ≤ row.length) :
    extract_warsaw_quarterly_prices grid
      = Except.ok ((grid.drop hr).filterMap (keepRow wc)) := by
  unfold extract_warsaw_quarterly_prices
  rw [hfind]
  exact extractRows_eq_filterMap wc _ hrect

theorem extractor_skip_conditions_witness :
    extract_warsaw_quarterly_prices
      [[Cell.str "Okres".toList, Cell.str "Warszawa".toList],
       [Cell.str "Q1 2021".toList, Cell.num 9500],
       [Cell.str "bad".toList, Cell.num 3]]
      = Except.ok ((([[Cell.str "Okres".toList, Cell.str "Warszawa".toList],
          [Cell.str "Q1 2021".toList, Cell.num 9500],
          [Cell.str "bad".toList, Cell.num 3]] : List (List Cell)).drop 1).filterMap
          (keepRow 2)) :=
  extractor_skip_conditions
    [[Cell.str "Okres".toList, Cell.str "Warszawa".toList],
     [Cell.str "Q1 2021".toList, Cell.num 9500],
     [Cell.str "bad".toList, Cell.num 3]] 1 2 (by decide) (by decide)
